import Mathlib

/-!
# The gray filter of libpillowfight (`src/pypillowfight/_grayfilter.c`)

A shallow embedding of `lightness_rect` and `grayfilter_main`, and of the parts of
`util.h` they rely on, followed by the properties of the tile scan.

Conventions.
* C `int` values are Lean integers.  The scan cursor never leaves the range of a 32-bit
  `int` for images of realistic size; `cursor_no_overflow` states the bound.
* The C `double` constants `BLACK_MAX` and `THRESHOLD_ABS` are the exact rationals
  `170.85` and `127.5`.  They are only ever compared with integers, and neither is within
  rounding distance of an integer, so the comparisons agree with the ones made in
  floating point.
* A bitmap is its size and its pixel buffer, a row-major list of pixels.
* `grayfilter_main` mutates `out` in place; here it returns the new value of `out`, and,
  as ghost state, the list of the scan steps it went through.
-/

namespace Grayfilter

/-! ## Data model -/

/-- The C type `union pixel`: four 8-bit channels in the order R, G, B, A. -/
structure pixel where
  r : Fin 256
  g : Fin 256
  b : Fin 256
  a : Fin 256
deriving DecidableEq

/-- The anonymous `size` member of `struct bitmap`. -/
structure bitmap_size where
  x : Int
  y : Int
deriving DecidableEq

/-- The C type `struct bitmap`: the size and the pixel buffer. -/
structure bitmap where
  size : bitmap_size
  pixels : List pixel
deriving DecidableEq

/-! ## Constants -/

/-- The C macro `SCAN_SIZE`: the side of a tile. -/
def SCAN_SIZE : Int := 50

/-- The C macro `SCAN_STEP`: the stride of the scan. -/
def SCAN_STEP : Int := 20

/-- The C constant `0.5`. -/
def THRESHOLD : ℚ := 1 / 2

/-- The C constant `0.33`. -/
def BLACK_THRESHOLD : ℚ := 33 / 100

/-- Modelled from the spec: the constant `WHITE` of `util.h`, which is not among the
sources; it is the maximum lightness, 255 for 8-bit channels. -/
def WHITE : Int := 255

/-- Modelled from the spec: the constant for a pixel with all channels saturated, which
`util.h` (not among the sources) defines. -/
def WHOLE_WHITE : pixel := ⟨255, 255, 255, 255⟩

/-- The C macro `BLACK_MAX`, `WHITE * (1.0 - BLACK_THRESHOLD)`. -/
def BLACK_MAX : ℚ := (WHITE : ℚ) * (1 - BLACK_THRESHOLD)

/-- The C macro `THRESHOLD_ABS`, `WHITE * THRESHOLD`. -/
def THRESHOLD_ABS : ℚ := (WHITE : ℚ) * THRESHOLD

/-! ## The parts of `util.h` the filter uses -/

/-- Modelled from the spec: the lightness of a pixel, which the macro
`GET_PIXEL_LIGHTNESS` of `util.h` (not among the sources) computes.  The spec fixes no
formula: lightness is a scalar derived from the channels of the pixel, it ranges from 0
to `WHITE`, and a full-white pixel has lightness `WHITE`.  The formula and the value the
macro yields at coordinates outside the image are parameters. -/
structure Lightness where
  of_pixel : pixel → Int
  outside : Int
  of_pixel_range : ∀ p, 0 ≤ of_pixel p ∧ of_pixel p ≤ WHITE
  outside_range : 0 ≤ outside ∧ outside ≤ WHITE
  of_white : of_pixel WHOLE_WHITE = WHITE

/-- Whether `(a, b)` is a coordinate of the image. -/
def in_bounds (img : bitmap) (a b : Int) : Prop :=
  0 ≤ a ∧ a < img.size.x ∧ 0 ≤ b ∧ b < img.size.y

instance (img : bitmap) (a b : Int) : Decidable (in_bounds img a b) := by
  unfold in_bounds
  exact inferInstance

/-- The position of the pixel `(a, b)` in the buffer. -/
def pixel_index (img : bitmap) (a b : Int) : Nat :=
  (b * img.size.x + a).toNat

/-- Modelled from the spec: the macro `GET_PIXEL` of `util.h` (not among the sources);
the buffer is row-major without padding. -/
def GET_PIXEL (img : bitmap) (a b : Int) : pixel :=
  img.pixels.getD (pixel_index img a b) WHOLE_WHITE

/-- Modelled from the spec: the macro `GET_PIXEL_LIGHTNESS` of `util.h` (not among the
sources). -/
def GET_PIXEL_LIGHTNESS (L : Lightness) (img : bitmap) (x y : Int) : Int :=
  if in_bounds img x y then L.of_pixel (GET_PIXEL img x y) else L.outside

/-- The values of a C loop `for (i = lo; i < hi; i++)`. -/
def int_range (lo hi : Int) : List Int :=
  (List.range (hi - lo).toNat).map (fun (i : Nat) => lo + (i : Int))

/-- The coordinates of the rectangle with corners `(left, top)` and `(right, bottom)`,
both included, that lie in the image. -/
def clamped_rect (img : bitmap) (left top right bottom : Int) : List (Int × Int) :=
  (int_range (max top 0) (min bottom (img.size.y - 1) + 1)).flatMap (fun y =>
    (int_range (max left 0) (min right (img.size.x - 1) + 1)).map (fun x => (x, y)))

/-- Modelled from the spec: `count_pixels_rect` of `util.c` (not among the sources)
returns the number of pixels of the rectangle, clamped to the image, whose lightness is
at or below the ceiling. -/
def count_pixels_rect (L : Lightness) (left top right bottom : Int) (max_brightness : ℚ)
    (img : bitmap) : Int :=
  (((clamped_rect img left top right bottom).filter
    (fun c => decide ((L.of_pixel (GET_PIXEL img c.1 c.2) : ℚ) ≤ max_brightness))).length : Int)

/-- Modelled from the spec: `clear_rect` of `util.c` (not among the sources) overwrites
every pixel of the rectangle, clamped to the image, with full white. -/
def clear_rect (img : bitmap) (left top right bottom : Int) : bitmap :=
  ⟨img.size, (clamped_rect img left top right bottom).foldl
    (fun ps c => ps.set (pixel_index img c.1 c.2) WHOLE_WHITE) img.pixels⟩

/-! ## `_grayfilter.c` -/

/-- The coordinates at which `lightness_rect` evaluates `GET_PIXEL_LIGHTNESS`, in the
order of its two loops. -/
def lightness_rect_coords (x1 y1 x2 y2 : Int) : List (Int × Int) :=
  (int_range x1 x2).flatMap (fun x => (int_range y1 y2).map (fun y => (x, y)))

/-- The function `lightness_rect`.  The quotient of C truncates; a zero `count` is
undefined behaviour in C and yields 0 here. -/
def lightness_rect (L : Lightness) (x1 y1 x2 y2 : Int) (img : bitmap) : Int :=
  let total := ((lightness_rect_coords x1 y1 x2 y2).map
    (fun c => GET_PIXEL_LIGHTNESS L img c.1 c.2)).sum
  let count := (x2 - x1 + 1) * (y2 - y1 + 1)
  Int.tdiv total count

/-- One pass through the body of the loop of `grayfilter_main`, as ghost state: the tile,
the buffer the tile was inspected in, the count of dark pixels, the average lightness when
`lightness_rect` was called, and whether `clear_rect` was called. -/
structure scan_event where
  left : Int
  top : Int
  right : Int
  bottom : Int
  seen : bitmap
  count : Int
  lightness : Option Int
  cleared : Bool
deriving DecidableEq

/-- Lines 75 to 81 of `grayfilter_main`: the inspection of one tile. -/
def scan_tile (L : Lightness) (left top right bottom : Int) (out : bitmap) :
    bitmap × scan_event :=
  let count := count_pixels_rect L left top right bottom BLACK_MAX out
  if count = 0 then
    let lightness := lightness_rect L left top right bottom out
    if (((WHITE - lightness : Int) : ℚ)) < THRESHOLD_ABS then
      (clear_rect out left top right bottom,
        ⟨left, top, right, bottom, out, count, some lightness, true⟩)
    else
      (out, ⟨left, top, right, bottom, out, count, some lightness, false⟩)
  else
    (out, ⟨left, top, right, bottom, out, count, none, false⟩)

/-- The loop `while (1)` of `grayfilter_main`, started with the cursor at the given tile:
the final value of `out` and the scan steps gone through. -/
def grayfilter_loop (L : Lightness) (left top right bottom : Int) (out : bitmap) :
    bitmap × List scan_event :=
  if left < (scan_tile L left top right bottom out).1.size.x then
    ((grayfilter_loop L (left + SCAN_STEP) top (right + SCAN_STEP) bottom
        (scan_tile L left top right bottom out).1).1,
      (scan_tile L left top right bottom out).2 ::
        (grayfilter_loop L (left + SCAN_STEP) top (right + SCAN_STEP) bottom
          (scan_tile L left top right bottom out).1).2)
  else if bottom ≥ (scan_tile L left top right bottom out).1.size.y then
    ((scan_tile L left top right bottom out).1, [(scan_tile L left top right bottom out).2])
  else
    ((grayfilter_loop L 0 (top + SCAN_STEP) (SCAN_SIZE - 1) (bottom + SCAN_STEP)
        (scan_tile L left top right bottom out).1).1,
      (scan_tile L left top right bottom out).2 ::
        (grayfilter_loop L 0 (top + SCAN_STEP) (SCAN_SIZE - 1) (bottom + SCAN_STEP)
          (scan_tile L left top right bottom out).1).2)
termination_by ((out.size.y - bottom).toNat, (out.size.x - left).toNat)
decreasing_by
  all_goals simp_wf
  · have hsize : (scan_tile L left top right bottom out).1.size = out.size := by
      unfold scan_tile
      simp only []
      split <;> [(split <;> rfl); rfl]
    simp only [hsize] at *
    simp only [SCAN_STEP, Prod.lex_def]
    exact Or.inr ⟨trivial, by omega⟩
  · have hsize : (scan_tile L left top right bottom out).1.size = out.size := by
      unfold scan_tile
      simp only []
      split <;> [(split <;> rfl); rfl]
    simp only [hsize] at *
    simp only [SCAN_STEP, Prod.lex_def]
    exact Or.inl (by omega)

/-- The call `memcpy(dst, src, n)` on pixel buffers, `n` counted in pixels. -/
def memcpy (dst src : List pixel) (n : Nat) : List pixel :=
  src.take n ++ dst.drop n

/-- The function `grayfilter_main` together with its ghost state. -/
def grayfilter_run (L : Lightness) (inp out : bitmap) : bitmap × List scan_event :=
  grayfilter_loop L 0 0 (SCAN_SIZE - 1) (SCAN_SIZE - 1)
    { out with pixels := memcpy out.pixels inp.pixels (inp.size.x * inp.size.y).toNat }

/-- The function `grayfilter_main`: the value of `out` when it returns. -/
def grayfilter_main (L : Lightness) (inp out : bitmap) : bitmap :=
  (grayfilter_run L inp out).1

/-- The scan steps `grayfilter_main` goes through, in order. -/
def grayfilter_trace (L : Lightness) (inp out : bitmap) : List scan_event :=
  (grayfilter_run L inp out).2

/-! ## Vocabulary of the statements -/

/-- The buffer of the image holds exactly `size.x * size.y` pixels. -/
def well_formed (img : bitmap) : Prop :=
  img.pixels.length = (img.size.x * img.size.y).toNat

instance (img : bitmap) : Decidable (well_formed img) := by
  unfold well_formed
  exact inferInstance

/-- The pixel `(x, y)` lies in the tile of the scan step, borders included. -/
def scan_event.covers (e : scan_event) (x y : Int) : Prop :=
  e.left ≤ x ∧ x ≤ e.right ∧ e.top ≤ y ∧ y ≤ e.bottom

instance (e : scan_event) (x y : Int) : Decidable (e.covers x y) := by
  unfold scan_event.covers
  exact inferInstance

/-- The lightness of the pixel is at or below `BLACK_MAX`. -/
def is_dark (L : Lightness) (p : pixel) : Prop :=
  (L.of_pixel p : ℚ) ≤ BLACK_MAX

/-- The number of steps to the right the scan makes in each row of tiles. -/
def scan_columns (w : Int) : Nat := ((w + 19) / 20).toNat

/-- The number of steps down the scan makes. -/
def scan_rows (h : Int) : Nat := ((h - 30) / 20).toNat

/-- The upper left corners `(left, top)` of the tiles of the scan of an image of width
`w` and height `h`, row by row. -/
def scan_tiles (w h : Int) : List (Int × Int) :=
  (List.range (scan_rows h + 1)).flatMap (fun (j : Nat) =>
    (List.range (scan_columns w + 1)).map (fun (i : Nat) =>
      (SCAN_STEP * (i : Int), SCAN_STEP * (j : Int))))

/-- The inspection of the tiles with the given upper left corners, one after the other. -/
def run_tiles (L : Lightness) : List (Int × Int) → bitmap → bitmap × List scan_event
  | [], out => (out, [])
  | t :: ts, out =>
    ((run_tiles L ts
        (scan_tile L t.1 t.2 (t.1 + (SCAN_SIZE - 1)) (t.2 + (SCAN_SIZE - 1)) out).1).1,
      (scan_tile L t.1 t.2 (t.1 + (SCAN_SIZE - 1)) (t.2 + (SCAN_SIZE - 1)) out).2 ::
        (run_tiles L ts
          (scan_tile L t.1 t.2 (t.1 + (SCAN_SIZE - 1)) (t.2 + (SCAN_SIZE - 1)) out).1).2)

/-! ## Devices of the proofs -/

/-- The upper left corners of the tiles of one row of the scan, from column `i` on. -/
def row_tiles (i k : Nat) (top : Int) : List (Int × Int) :=
  (List.range' i (k + 1)).map (fun (c : Nat) => (SCAN_STEP * (c : Int), top))

/-- The buffer `o` is the image `inp` with some pixels that are not dark made white. -/
def scan_invariant (L : Lightness) (inp o : bitmap) : Prop :=
  o.size = inp.size ∧ well_formed o ∧
    ∀ x y, in_bounds inp x y →
      GET_PIXEL o x y = GET_PIXEL inp x y ∨
        (GET_PIXEL o x y = WHOLE_WHITE ∧ ¬ is_dark L (GET_PIXEL inp x y))

/-- The pixel `(x, y)` lies in the tile with upper left corner `t`, borders included. -/
def tile_covers (t : Int × Int) (x y : Int) : Prop :=
  t.1 ≤ x ∧ x ≤ t.1 + (SCAN_SIZE - 1) ∧ t.2 ≤ y ∧ y ≤ t.2 + (SCAN_SIZE - 1)

/-- The part of the tile with upper left corner `t` that lies in the image has no pixel of
lightness at or below `BLACK_MAX`. -/
def no_dark (L : Lightness) (img : bitmap) (t : Int × Int) : Prop :=
  ∀ x y, in_bounds img x y → tile_covers t x y → ¬ is_dark L (GET_PIXEL img x y)

/-- The cursor `(top, left)` of `a` comes before that of `b` in lexicographic order. -/
def cursor_lt (a b : Int × Int) : Prop :=
  a.2 < b.2 ∨ (a.2 = b.2 ∧ a.1 < b.1)

/-! ## Sample inputs -/

/-- A lightness for the examples: the darkest of the three colour channels, and full
white outside the image. -/
def sample_lightness : Lightness where
  of_pixel := fun p => ((min p.r (min p.g p.b)).val : Int)
  outside := 255
  of_pixel_range := by
    intro p
    have := (min p.r (min p.g p.b)).isLt
    simp only [WHITE]
    omega
  outside_range := by decide
  of_white := by decide

/-- The gray pixel of value `v`, with full alpha. -/
def gray (v : Fin 256) : pixel := ⟨v, v, v, 255⟩

/-- The image of width `w` and height `h` whose pixels are all `gray v`. -/
def uniform_image (w h : Nat) (v : Fin 256) : bitmap :=
  ⟨⟨(w : Int), (h : Int)⟩, List.replicate (w * h) (gray v)⟩

/-- A lightness like `sample_lightness`, but black outside the image. -/
def dark_surround_lightness : Lightness where
  of_pixel := fun p => ((min p.r (min p.g p.b)).val : Int)
  outside := 0
  of_pixel_range := by
    intro p
    have := (min p.r (min p.g p.b)).isLt
    simp only [WHITE]
    omega
  outside_range := by decide
  of_white := by decide

/-- A lightness like `sample_lightness`, but of value 130 outside the image. -/
def dim_surround_lightness : Lightness where
  of_pixel := fun p => ((min p.r (min p.g p.b)).val : Int)
  outside := 130
  of_pixel_range := by
    intro p
    have := (min p.r (min p.g p.b)).isLt
    simp only [WHITE]
    omega
  outside_range := by decide
  of_white := by decide

/-- The image of width `w` and height `h` whose pixel in column `x` is `gray (col x)`. -/
def column_image (w h : Nat) (col : Int → Fin 256) : bitmap :=
  ⟨⟨(w : Int), (h : Int)⟩,
    (List.range (w * h)).map (fun (i : Nat) => gray (col ((i % w : Nat) : Int)))⟩

/-- Gray values in three bands of columns: 171 left of column 20, 200 left of column 49,
255 from there on. -/
def three_bands (x : Int) : Fin 256 :=
  if x < 20 then 171 else if x < 49 then 200 else 255

/-- The image of width 69 and height 2 with the columns of `three_bands`. -/
def banded_image : bitmap := column_image 69 2 three_bands

/-! ## The variant that judges the tiles on the input -/

/-- The body of the loop in the variant of the claim C15: `count_pixels_rect` and
`lightness_rect` are evaluated on the input `inp`, and `clear_rect` is applied to `out`. -/
def scan_tile_on_input (L : Lightness) (inp : bitmap) (left top right bottom : Int)
    (out : bitmap) : bitmap :=
  let count := count_pixels_rect L left top right bottom BLACK_MAX inp
  if count = 0 then
    let lightness := lightness_rect L left top right bottom inp
    if (((WHITE - lightness : Int) : ℚ)) < THRESHOLD_ABS then
      clear_rect out left top right bottom
    else
      out
  else
    out

/-- The loop of `grayfilter_main` with the body of the variant. -/
def grayfilter_loop_on_input (L : Lightness) (inp : bitmap) (left top right bottom : Int)
    (out : bitmap) : bitmap :=
  if left < (scan_tile_on_input L inp left top right bottom out).size.x then
    grayfilter_loop_on_input L inp (left + SCAN_STEP) top (right + SCAN_STEP) bottom
      (scan_tile_on_input L inp left top right bottom out)
  else if bottom ≥ (scan_tile_on_input L inp left top right bottom out).size.y then
    scan_tile_on_input L inp left top right bottom out
  else
    grayfilter_loop_on_input L inp 0 (top + SCAN_STEP) (SCAN_SIZE - 1) (bottom + SCAN_STEP)
      (scan_tile_on_input L inp left top right bottom out)
termination_by ((out.size.y - bottom).toNat, (out.size.x - left).toNat)
decreasing_by
  all_goals simp_wf
  · have hsize : (scan_tile_on_input L inp left top right bottom out).size = out.size := by
      unfold scan_tile_on_input
      simp only []
      split <;> [(split <;> rfl); rfl]
    simp only [hsize] at *
    simp only [SCAN_STEP, Prod.lex_def]
    exact Or.inr ⟨trivial, by omega⟩
  · have hsize : (scan_tile_on_input L inp left top right bottom out).size = out.size := by
      unfold scan_tile_on_input
      simp only []
      split <;> [(split <;> rfl); rfl]
    simp only [hsize] at *
    simp only [SCAN_STEP, Prod.lex_def]
    exact Or.inl (by omega)

/-- The variant of `grayfilter_main` of the claim C15: the input is copied to `out`, the
tiles are visited as in `grayfilter_main`, and each is judged on the input. -/
def grayfilter_main_on_input (L : Lightness) (inp out : bitmap) : bitmap :=
  grayfilter_loop_on_input L inp 0 0 (SCAN_SIZE - 1) (SCAN_SIZE - 1)
    { out with pixels := memcpy out.pixels inp.pixels (inp.size.x * inp.size.y).toNat }

/-- The variant's inspection of the tiles with the given upper left corners, one after
the other. -/
def run_tiles_on_input (L : Lightness) (inp : bitmap) (ts : List (Int × Int))
    (out : bitmap) : bitmap :=
  ts.foldl (fun o t => scan_tile_on_input L inp t.1 t.2 (t.1 + (SCAN_SIZE - 1))
    (t.2 + (SCAN_SIZE - 1)) o) out

/-! ## Ranges and rectangles -/

theorem clear_rect_size (img : bitmap) (left top right bottom : Int) :
    (clear_rect img left top right bottom).size = img.size := rfl

theorem scan_tile_size (L : Lightness) (left top right bottom : Int) (out : bitmap) :
    (scan_tile L left top right bottom out).1.size = out.size := by
  unfold scan_tile
  simp only []
  split
  · split
    · rfl
    · rfl
  · rfl

theorem mem_int_range (lo hi x : Int) : x ∈ int_range lo hi ↔ lo ≤ x ∧ x < hi := by
  unfold int_range
  simp only [List.mem_map, List.mem_range]
  constructor
  · rintro ⟨i, hi1, rfl⟩
    omega
  · rintro ⟨h1, h2⟩
    exact ⟨(x - lo).toNat, by omega, by omega⟩

theorem length_int_range (lo hi : Int) : (int_range lo hi).length = (hi - lo).toNat := by
  simp [int_range]

theorem mem_clamped_rect (img : bitmap) (left top right bottom x y : Int) :
    (x, y) ∈ clamped_rect img left top right bottom ↔
      in_bounds img x y ∧ left ≤ x ∧ x ≤ right ∧ top ≤ y ∧ y ≤ bottom := by
  unfold clamped_rect in_bounds
  simp only [List.mem_flatMap, List.mem_map, mem_int_range, Prod.mk.injEq]
  constructor
  · rintro ⟨y', hy, x', hx, rfl, rfl⟩
    omega
  · intro h
    exact ⟨y, by omega, x, by omega, rfl, rfl⟩

theorem mem_lightness_rect_coords (x1 y1 x2 y2 x y : Int) :
    (x, y) ∈ lightness_rect_coords x1 y1 x2 y2 ↔ (x1 ≤ x ∧ x < x2) ∧ (y1 ≤ y ∧ y < y2) := by
  unfold lightness_rect_coords
  simp only [List.mem_flatMap, List.mem_map, mem_int_range, Prod.mk.injEq]
  constructor
  · rintro ⟨x', hx, y', hy, rfl, rfl⟩
    exact ⟨hx, hy⟩
  · rintro ⟨hx, hy⟩
    exact ⟨x, hx, y, hy, rfl, rfl⟩

theorem length_lightness_rect_coords (x1 y1 x2 y2 : Int) :
    (lightness_rect_coords x1 y1 x2 y2).length = (x2 - x1).toNat * (y2 - y1).toNat := by
  unfold lightness_rect_coords
  rw [List.length_flatMap]
  have h : (List.length ∘ fun x : Int => (int_range y1 y2).map (fun y => (x, y))) =
      fun _ => (y2 - y1).toNat := by
    funext x
    simp [length_int_range]
  rw [h, List.map_const', List.sum_replicate, length_int_range]
  simp

/-! ## The pixel buffer -/

theorem pixel_index_lt (img : bitmap) (x y : Int) (hw : well_formed img)
    (hb : in_bounds img x y) : pixel_index img x y < img.pixels.length := by
  obtain ⟨hx0, hx1, hy0, hy1⟩ := hb
  unfold well_formed at hw
  unfold pixel_index
  rw [hw]
  have h1 : (y + 1) * img.size.x ≤ img.size.y * img.size.x :=
    Int.mul_le_mul_of_nonneg_right (by omega) (by omega)
  have h2 : 0 ≤ y * img.size.x := Int.mul_nonneg hy0 (by omega)
  have h3 : (y + 1) * img.size.x = y * img.size.x + img.size.x := by ring
  have h4 : img.size.y * img.size.x = img.size.x * img.size.y := by ring
  omega

theorem pixel_index_inj (img : bitmap) (x y x' y' : Int) (hb : in_bounds img x y)
    (hb' : in_bounds img x' y') (h : pixel_index img x y = pixel_index img x' y') :
    x = x' ∧ y = y' := by
  obtain ⟨hx0, hx1, hy0, hy1⟩ := hb
  obtain ⟨hx0', hx1', hy0', hy1'⟩ := hb'
  unfold pixel_index at h
  have h2 : 0 ≤ y * img.size.x := Int.mul_nonneg hy0 (by omega)
  have h2' : 0 ≤ y' * img.size.x := Int.mul_nonneg hy0' (by omega)
  have e : y * img.size.x + x = y' * img.size.x + x' := by omega
  have ex : (x + y * img.size.x) % img.size.x = (x' + y' * img.size.x) % img.size.x := by
    rw [Int.add_comm x, Int.add_comm x', e]
  rw [Int.add_mul_emod_self, Int.add_mul_emod_self, Int.emod_eq_of_lt hx0 hx1,
    Int.emod_eq_of_lt hx0' hx1'] at ex
  subst ex
  have ey : y * img.size.x = y' * img.size.x := by omega
  exact ⟨rfl, Int.eq_of_mul_eq_mul_right (by omega) ey⟩

theorem getD_foldl_set (v d : pixel) (f : Int × Int → Nat) (cs : List (Int × Int))
    (ps : List pixel) (j : Nat) (hj : j < ps.length) :
    (cs.foldl (fun qs c => qs.set (f c) v) ps).getD j d =
      if ∃ c ∈ cs, f c = j then v else ps.getD j d := by
  induction cs generalizing ps with
  | nil => simp
  | cons c cs ih =>
    rw [List.foldl_cons, ih _ (by simpa using hj)]
    by_cases h1 : ∃ c' ∈ cs, f c' = j
    · have h2 : ∃ c' ∈ c :: cs, f c' = j := by
        obtain ⟨c', hc', e⟩ := h1
        exact ⟨c', List.mem_cons_of_mem _ hc', e⟩
      rw [if_pos h1, if_pos h2]
    · rw [if_neg h1]
      by_cases h3 : f c = j
      · have h2 : ∃ c' ∈ c :: cs, f c' = j := ⟨c, List.mem_cons_self _ _, h3⟩
        rw [if_pos h2, List.getD_eq_getElem?_getD, List.getElem?_set, if_pos h3,
          if_pos (by omega)]
        rfl
      · have h2 : ¬ ∃ c' ∈ c :: cs, f c' = j := by
          rintro ⟨c', hc', e⟩
          rcases List.mem_cons.1 hc' with rfl | hc'
          · exact h3 e
          · exact h1 ⟨c', hc', e⟩
        rw [if_neg h2, List.getD_eq_getElem?_getD, List.getElem?_set, if_neg h3,
          List.getD_eq_getElem?_getD]

theorem length_foldl_set (v : pixel) (f : Int × Int → Nat) (cs : List (Int × Int))
    (ps : List pixel) : (cs.foldl (fun qs c => qs.set (f c) v) ps).length = ps.length := by
  induction cs generalizing ps with
  | nil => rfl
  | cons c cs ih => rw [List.foldl_cons, ih, List.length_set]

theorem clear_rect_well_formed (img : bitmap) (left top right bottom : Int)
    (hw : well_formed img) : well_formed (clear_rect img left top right bottom) := by
  unfold well_formed at *
  rw [clear_rect_size, ← hw]
  exact length_foldl_set _ _ _ _

/-- The effect of `clear_rect` on the pixels of the image. -/
theorem GET_PIXEL_clear_rect (img : bitmap) (left top right bottom x y : Int)
    (hw : well_formed img) (hb : in_bounds img x y) :
    GET_PIXEL (clear_rect img left top right bottom) x y =
      if left ≤ x ∧ x ≤ right ∧ top ≤ y ∧ y ≤ bottom then WHOLE_WHITE
      else GET_PIXEL img x y := by
  unfold GET_PIXEL
  show (List.foldl _ img.pixels _).getD (pixel_index img x y) WHOLE_WHITE = _
  rw [getD_foldl_set WHOLE_WHITE WHOLE_WHITE (fun c => pixel_index img c.1 c.2) _ _ _
    (pixel_index_lt img x y hw hb)]
  by_cases h : left ≤ x ∧ x ≤ right ∧ top ≤ y ∧ y ≤ bottom
  · rw [if_pos h, if_pos]
    exact ⟨(x, y), (mem_clamped_rect _ _ _ _ _ _ _).2 ⟨hb, h⟩, rfl⟩
  · rw [if_neg h, if_neg]
    rintro ⟨⟨x', y'⟩, hc, e⟩
    obtain ⟨hb', h'⟩ := (mem_clamped_rect _ _ _ _ _ _ _).1 hc
    obtain ⟨rfl, rfl⟩ := pixel_index_inj img x' y' x y hb' hb e
    exact h h'

/-! ## The loop visits the tiles of `scan_tiles` -/

theorem run_tiles_size (L : Lightness) (ts : List (Int × Int)) (out : bitmap) :
    (run_tiles L ts out).1.size = out.size := by
  induction ts generalizing out with
  | nil => rfl
  | cons t ts ih =>
    show (run_tiles L ts _).1.size = _
    rw [ih, scan_tile_size]

theorem run_tiles_append (L : Lightness) (ts us : List (Int × Int)) (out : bitmap) :
    run_tiles L (ts ++ us) out =
      ((run_tiles L us (run_tiles L ts out).1).1,
        (run_tiles L ts out).2 ++ (run_tiles L us (run_tiles L ts out).1).2) := by
  induction ts generalizing out with
  | nil => rfl
  | cons t ts ih =>
    show ((run_tiles L (ts ++ us) _).1, _ :: (run_tiles L (ts ++ us) _).2) = _
    rw [ih]
    rfl

theorem lt_width_iff (w : Int) (i : Nat) : SCAN_STEP * (i : Int) < w ↔ i < scan_columns w := by
  unfold SCAN_STEP scan_columns
  omega

theorem bottom_ge_height_iff (h : Int) (j : Nat) :
    SCAN_STEP * (j : Int) + (SCAN_SIZE - 1) ≥ h ↔ scan_rows h ≤ j := by
  unfold SCAN_STEP SCAN_SIZE scan_rows
  omega

theorem loop_row (L : Lightness) (k : Nat) : ∀ (i : Nat) (top : Int) (out : bitmap),
    i + k = scan_columns out.size.x →
    grayfilter_loop L (SCAN_STEP * (i : Int)) top (SCAN_STEP * (i : Int) + (SCAN_SIZE - 1))
        (top + (SCAN_SIZE - 1)) out =
      if top + (SCAN_SIZE - 1) ≥ out.size.y then run_tiles L (row_tiles i k top) out
      else
        ((grayfilter_loop L 0 (top + SCAN_STEP) (SCAN_SIZE - 1)
            (top + (SCAN_SIZE - 1) + SCAN_STEP) (run_tiles L (row_tiles i k top) out).1).1,
          (run_tiles L (row_tiles i k top) out).2 ++
            (grayfilter_loop L 0 (top + SCAN_STEP) (SCAN_SIZE - 1)
              (top + (SCAN_SIZE - 1) + SCAN_STEP) (run_tiles L (row_tiles i k top) out).1).2) := by
  induction k with
  | zero =>
    intro i top out hik
    rw [grayfilter_loop, scan_tile_size]
    have h1 : ¬ SCAN_STEP * (i : Int) < out.size.x := by
      rw [lt_width_iff]
      omega
    rw [if_neg h1]
    by_cases h2 : top + (SCAN_SIZE - 1) ≥ out.size.y
    · rw [if_pos h2, if_pos h2]
      rfl
    · rw [if_neg h2, if_neg h2]
      rfl
  | succ k ih =>
    intro i top out hik
    rw [grayfilter_loop, scan_tile_size]
    have h1 : SCAN_STEP * (i : Int) < out.size.x := by
      rw [lt_width_iff]
      omega
    rw [if_pos h1]
    have e1 : SCAN_STEP * (i : Int) + SCAN_STEP = SCAN_STEP * ((i + 1 : Nat) : Int) := by
      push_cast
      ring
    have e2 : SCAN_STEP * (i : Int) + (SCAN_SIZE - 1) + SCAN_STEP =
        SCAN_STEP * ((i + 1 : Nat) : Int) + (SCAN_SIZE - 1) := by
      push_cast
      ring
    rw [e1, e2, ih (i + 1) top _ (by rw [scan_tile_size]; omega), scan_tile_size]
    have e3 : row_tiles i (k + 1) top = (SCAN_STEP * (i : Int), top) :: row_tiles (i + 1) k top := by
      unfold row_tiles
      rw [List.range'_succ, List.map_cons]
    rw [e3]
    by_cases h2 : top + (SCAN_SIZE - 1) ≥ out.size.y
    · rw [if_pos h2, if_pos h2]
      rfl
    · rw [if_neg h2, if_neg h2]
      rfl

theorem loop_rows (L : Lightness) (m : Nat) : ∀ (j : Nat) (out : bitmap),
    j + m = scan_rows out.size.y →
    grayfilter_loop L 0 (SCAN_STEP * (j : Int)) (SCAN_SIZE - 1)
        (SCAN_STEP * (j : Int) + (SCAN_SIZE - 1)) out =
      run_tiles L ((List.range' j (m + 1)).flatMap (fun (r : Nat) =>
        row_tiles 0 (scan_columns out.size.x) (SCAN_STEP * (r : Int)))) out := by
  induction m with
  | zero =>
    intro j out hj
    have h := loop_row L (scan_columns out.size.x) 0 (SCAN_STEP * (j : Int)) out (by omega)
    simp only [Nat.cast_zero, mul_zero, zero_add] at h
    rw [h, if_pos ((bottom_ge_height_iff _ _).2 (by omega))]
    simp [List.range'_succ]
  | succ m ih =>
    intro j out hj
    have h := loop_row L (scan_columns out.size.x) 0 (SCAN_STEP * (j : Int)) out (by omega)
    simp only [Nat.cast_zero, mul_zero, zero_add] at h
    have h2 : ¬ SCAN_STEP * (j : Int) + (SCAN_SIZE - 1) ≥ out.size.y := by
      rw [bottom_ge_height_iff]
      omega
    rw [h, if_neg h2]
    have e1 : SCAN_STEP * (j : Int) + SCAN_STEP = SCAN_STEP * ((j + 1 : Nat) : Int) := by
      push_cast
      ring
    have e2 : SCAN_STEP * (j : Int) + (SCAN_SIZE - 1) + SCAN_STEP =
        SCAN_STEP * ((j + 1 : Nat) : Int) + (SCAN_SIZE - 1) := by
      push_cast
      ring
    rw [e1, e2, ih (j + 1) _ (by rw [run_tiles_size]; omega), run_tiles_size]
    conv_rhs => rw [List.range'_succ, List.flatMap_cons, run_tiles_append]

theorem scan_tiles_eq (w h : Int) :
    scan_tiles w h = (List.range' 0 (scan_rows h + 1)).flatMap (fun (r : Nat) =>
      row_tiles 0 (scan_columns w) (SCAN_STEP * (r : Int))) := by
  unfold scan_tiles row_tiles
  rw [List.range_eq_range', List.range_eq_range']

/-- The loop of `grayfilter_main` inspects the tiles of `scan_tiles`, in that order. -/
theorem grayfilter_loop_eq_run_tiles (L : Lightness) (out : bitmap) :
    grayfilter_loop L 0 0 (SCAN_SIZE - 1) (SCAN_SIZE - 1) out =
      run_tiles L (scan_tiles out.size.x out.size.y) out := by
  have h := loop_rows L (scan_rows out.size.y) 0 out (by omega)
  simp only [Nat.cast_zero, mul_zero, zero_add] at h
  rw [h, scan_tiles_eq]

/-! ## The thresholds -/

theorem BLACK_MAX_eq : BLACK_MAX = 17085 / 100 := by
  unfold BLACK_MAX BLACK_THRESHOLD WHITE
  norm_num

theorem THRESHOLD_ABS_eq : THRESHOLD_ABS = 255 / 2 := by
  unfold THRESHOLD_ABS THRESHOLD WHITE
  norm_num

/-- An integer lightness is at or below `BLACK_MAX` exactly when it is at most 170. -/
theorem le_BLACK_MAX_iff (v : Int) : (v : ℚ) ≤ BLACK_MAX ↔ v ≤ 170 := by
  rw [BLACK_MAX_eq]
  constructor
  · intro h
    by_contra hc
    have h1 : (171 : ℚ) ≤ (v : ℚ) := by exact_mod_cast (by omega : (171 : Int) ≤ v)
    linarith
  · intro h
    have h1 : (v : ℚ) ≤ (170 : ℚ) := by exact_mod_cast h
    linarith

/-- The test `(WHITE - lightness) < THRESHOLD_ABS` holds exactly when the integer
lightness is at least 128. -/
theorem lt_THRESHOLD_ABS_iff (v : Int) :
    (((WHITE - v : Int)) : ℚ) < THRESHOLD_ABS ↔ 128 ≤ v := by
  rw [THRESHOLD_ABS_eq]
  unfold WHITE
  constructor
  · intro h
    by_contra hc
    have h1 : (128 : ℚ) ≤ (((255 - v : Int)) : ℚ) := by
      exact_mod_cast (by omega : (128 : Int) ≤ 255 - v)
    linarith
  · intro h
    have h1 : (((255 - v : Int)) : ℚ) ≤ (127 : ℚ) := by
      exact_mod_cast (by omega : (255 - v : Int) ≤ 127)
    linarith

theorem is_dark_iff (L : Lightness) (p : pixel) : is_dark L p ↔ L.of_pixel p ≤ 170 :=
  le_BLACK_MAX_iff _

theorem not_is_dark_white (L : Lightness) : ¬ is_dark L WHOLE_WHITE := by
  rw [is_dark_iff, L.of_white]
  decide

/-! ## The primitives on one tile -/

theorem count_pixels_rect_eq_zero_iff (L : Lightness) (left top right bottom : Int)
    (c : ℚ) (img : bitmap) :
    count_pixels_rect L left top right bottom c img = 0 ↔
      ∀ x y, in_bounds img x y → left ≤ x ∧ x ≤ right ∧ top ≤ y ∧ y ≤ bottom →
        ¬ ((L.of_pixel (GET_PIXEL img x y) : ℚ) ≤ c) := by
  unfold count_pixels_rect
  rw [Int.natCast_eq_zero, List.length_eq_zero, List.filter_eq_nil_iff]
  constructor
  · intro h x y hb ht
    have := h (x, y) ((mem_clamped_rect _ _ _ _ _ _ _).2 ⟨hb, ht⟩)
    simpa using this
  · rintro h ⟨x, y⟩ hc
    obtain ⟨hb, ht⟩ := (mem_clamped_rect _ _ _ _ _ _ _).1 hc
    simpa using h x y hb ht

theorem lightness_total_nonneg (L : Lightness) (img : bitmap) (cs : List (Int × Int)) :
    0 ≤ (cs.map (fun c => GET_PIXEL_LIGHTNESS L img c.1 c.2)).sum := by
  apply List.sum_nonneg
  intro v hv
  obtain ⟨c, _, rfl⟩ := List.mem_map.1 hv
  unfold GET_PIXEL_LIGHTNESS
  split
  · exact (L.of_pixel_range _).1
  · exact L.outside_range.1

theorem GET_PIXEL_LIGHTNESS_le (L : Lightness) (img : bitmap) (x y : Int) :
    GET_PIXEL_LIGHTNESS L img x y ≤ WHITE := by
  unfold GET_PIXEL_LIGHTNESS
  split
  · exact (L.of_pixel_range _).2
  · exact L.outside_range.2

/-- On a tile of the scan `lightness_rect` divides the sum of 2401 values by 2500. -/
theorem lightness_rect_tile (L : Lightness) (left top : Int) (img : bitmap) :
    lightness_rect L left top (left + (SCAN_SIZE - 1)) (top + (SCAN_SIZE - 1)) img =
      ((lightness_rect_coords left top (left + (SCAN_SIZE - 1)) (top + (SCAN_SIZE - 1))).map
        (fun c => GET_PIXEL_LIGHTNESS L img c.1 c.2)).sum / 2500 := by
  unfold lightness_rect
  simp only []
  have e : (left + (SCAN_SIZE - 1) - left + 1) * (top + (SCAN_SIZE - 1) - top + 1) = 2500 := by
    unfold SCAN_SIZE
    ring
  rw [e, Int.tdiv_eq_ediv (lightness_total_nonneg L img _) (by decide)]

theorem length_tile_coords (left top : Int) :
    (lightness_rect_coords left top (left + (SCAN_SIZE - 1)) (top + (SCAN_SIZE - 1))).length
      = 2401 := by
  rw [length_lightness_rect_coords]
  have e1 : left + (SCAN_SIZE - 1) - left = 49 := by
    unfold SCAN_SIZE
    ring
  have e2 : top + (SCAN_SIZE - 1) - top = 49 := by
    unfold SCAN_SIZE
    ring
  rw [e1, e2]
  rfl

/-- A lower bound on every value read bounds the result of `lightness_rect` on a tile. -/
theorem lightness_rect_tile_ge (L : Lightness) (left top m : Int) (img : bitmap)
    (h : ∀ x y, (left ≤ x ∧ x < left + (SCAN_SIZE - 1)) ∧ (top ≤ y ∧ y < top + (SCAN_SIZE - 1)) →
      m ≤ GET_PIXEL_LIGHTNESS L img x y) :
    (2401 * m) / 2500 ≤
      lightness_rect L left top (left + (SCAN_SIZE - 1)) (top + (SCAN_SIZE - 1)) img := by
  rw [lightness_rect_tile]
  apply Int.ediv_le_ediv (by decide)
  have h1 := List.card_nsmul_le_sum
    ((lightness_rect_coords left top (left + (SCAN_SIZE - 1)) (top + (SCAN_SIZE - 1))).map
      (fun c => GET_PIXEL_LIGHTNESS L img c.1 c.2)) m (by
        intro v hv
        obtain ⟨⟨x, y⟩, hc, rfl⟩ := List.mem_map.1 hv
        exact h x y ((mem_lightness_rect_coords _ _ _ _ _ _).1 hc))
  rw [List.length_map, length_tile_coords] at h1
  simpa using h1

/-- What one pass through the body of the loop records. -/
theorem scan_tile_event (L : Lightness) (left top right bottom : Int) (out : bitmap) :
    (scan_tile L left top right bottom out).2 =
      ⟨left, top, right, bottom, out,
        count_pixels_rect L left top right bottom BLACK_MAX out,
        if count_pixels_rect L left top right bottom BLACK_MAX out = 0 then
          some (lightness_rect L left top right bottom out) else none,
        decide (count_pixels_rect L left top right bottom BLACK_MAX out = 0 ∧
          (((WHITE - lightness_rect L left top right bottom out : Int)) : ℚ) < THRESHOLD_ABS)⟩ := by
  unfold scan_tile
  simp only []
  by_cases h1 : count_pixels_rect L left top right bottom BLACK_MAX out = 0
  · by_cases h2 : (((WHITE - lightness_rect L left top right bottom out : Int)) : ℚ) < THRESHOLD_ABS
    · simp only [if_pos h1, if_pos h2, decide_eq_true (show _ ∧ _ from ⟨h1, h2⟩)]
    · simp only [if_pos h1, if_neg h2, decide_eq_false (fun h : _ ∧ _ => h2 h.2)]
  · simp only [if_neg h1, decide_eq_false (fun h : _ ∧ _ => h1 h.1)]

/-- What one pass through the body of the loop does to `out`. -/
theorem scan_tile_out (L : Lightness) (left top right bottom : Int) (out : bitmap) :
    (scan_tile L left top right bottom out).1 =
      if (scan_tile L left top right bottom out).2.cleared = true then
        clear_rect out left top right bottom else out := by
  unfold scan_tile
  simp only []
  by_cases h1 : count_pixels_rect L left top right bottom BLACK_MAX out = 0
  · by_cases h2 : (((WHITE - lightness_rect L left top right bottom out : Int)) : ℚ) < THRESHOLD_ABS
    · simp only [if_pos h1, if_pos h2, if_true]
    · simp only [if_pos h1, if_neg h2, Bool.false_eq_true, if_false]
  · simp only [if_neg h1, Bool.false_eq_true, if_false]

theorem scan_tile_well_formed (L : Lightness) (left top right bottom : Int) (out : bitmap)
    (hw : well_formed out) : well_formed (scan_tile L left top right bottom out).1 := by
  rw [scan_tile_out]
  split
  · exact clear_rect_well_formed _ _ _ _ _ hw
  · exact hw

/-- The pixels after one pass through the body of the loop. -/
theorem GET_PIXEL_scan_tile (L : Lightness) (left top right bottom x y : Int) (out : bitmap)
    (hw : well_formed out) (hb : in_bounds out x y) :
    GET_PIXEL (scan_tile L left top right bottom out).1 x y =
      if (scan_tile L left top right bottom out).2.cleared = true ∧
          (scan_tile L left top right bottom out).2.covers x y then WHOLE_WHITE
      else GET_PIXEL out x y := by
  rw [scan_tile_out]
  have hc : (scan_tile L left top right bottom out).2.covers x y ↔
      (left ≤ x ∧ x ≤ right ∧ top ≤ y ∧ y ≤ bottom) := by
    rw [scan_tile_event]
    rfl
  by_cases h : (scan_tile L left top right bottom out).2.cleared = true
  · rw [if_pos h, GET_PIXEL_clear_rect _ _ _ _ _ _ _ hw hb]
    simp only [h, hc, true_and]
  · rw [if_neg h]
    simp [h]

/-! ## Runs over a list of tiles -/

theorem run_tiles_well_formed (L : Lightness) (ts : List (Int × Int)) (out : bitmap)
    (hw : well_formed out) : well_formed (run_tiles L ts out).1 := by
  induction ts generalizing out with
  | nil => exact hw
  | cons t ts ih => exact ih _ (scan_tile_well_formed L _ _ _ _ out hw)

theorem run_tiles_tiles (L : Lightness) (ts : List (Int × Int)) (out : bitmap) :
    (run_tiles L ts out).2.map (fun e => (e.left, e.top)) = ts := by
  induction ts generalizing out with
  | nil => rfl
  | cons t ts ih =>
    show (_ :: (run_tiles L ts _).2).map _ = _
    rw [List.map_cons, ih, scan_tile_event]

/-- A property of the buffer that every pass through the body of the loop preserves holds
whenever a tile is inspected and at the end; every recorded step is the step `scan_tile`
makes on the buffer it saw. -/
theorem run_tiles_events (L : Lightness) (Inv : bitmap → Prop)
    (hstep : ∀ o l t, Inv o →
      Inv (scan_tile L l t (l + (SCAN_SIZE - 1)) (t + (SCAN_SIZE - 1)) o).1)
    (ts : List (Int × Int)) (out : bitmap) (h0 : Inv out) :
    Inv (run_tiles L ts out).1 ∧ ∀ e ∈ (run_tiles L ts out).2,
      Inv e.seen ∧ (e.left, e.top) ∈ ts ∧
        e = (scan_tile L e.left e.top (e.left + (SCAN_SIZE - 1))
          (e.top + (SCAN_SIZE - 1)) e.seen).2 := by
  induction ts generalizing out with
  | nil => exact ⟨h0, fun e he => absurd he (List.not_mem_nil e)⟩
  | cons t ts ih =>
    obtain ⟨h1, h2⟩ := ih _ (hstep out t.1 t.2 h0)
    refine ⟨h1, fun e he => ?_⟩
    rcases List.mem_cons.1 he with rfl | he
    · rw [scan_tile_event]
      refine ⟨h0, List.mem_cons_self _ _, ?_⟩
      simp only []
      rw [scan_tile_event]
    · obtain ⟨h3, h4, h5⟩ := h2 e he
      exact ⟨h3, List.mem_cons_of_mem _ h4, h5⟩

/-- The pixels at the end of a run: white where a cleared tile covers them, untouched
elsewhere. -/
theorem GET_PIXEL_run_tiles (L : Lightness) (ts : List (Int × Int)) (out : bitmap)
    (x y : Int) (hw : well_formed out) (hb : in_bounds out x y) :
    GET_PIXEL (run_tiles L ts out).1 x y =
      if ∃ e ∈ (run_tiles L ts out).2, e.cleared = true ∧ e.covers x y then WHOLE_WHITE
      else GET_PIXEL out x y := by
  induction ts generalizing out with
  | nil => simp [run_tiles]
  | cons t ts ih =>
    have hb1 : in_bounds (scan_tile L t.1 t.2 (t.1 + (SCAN_SIZE - 1))
        (t.2 + (SCAN_SIZE - 1)) out).1 x y := by
      unfold in_bounds
      rw [scan_tile_size]
      exact hb
    have h1 := ih _ (scan_tile_well_formed L _ _ _ _ out hw) hb1
    rw [GET_PIXEL_scan_tile L _ _ _ _ x y out hw hb] at h1
    simp only [run_tiles, List.mem_cons, exists_eq_or_imp]
    rw [h1]
    by_cases ha : ∃ e ∈ (run_tiles L ts (scan_tile L t.1 t.2 (t.1 + (SCAN_SIZE - 1))
        (t.2 + (SCAN_SIZE - 1)) out).1).2, e.cleared = true ∧ e.covers x y
    · rw [if_pos ha, if_pos (Or.inr ha)]
    · rw [if_neg ha]
      by_cases hc : (scan_tile L t.1 t.2 (t.1 + (SCAN_SIZE - 1))
          (t.2 + (SCAN_SIZE - 1)) out).2.cleared = true ∧
          (scan_tile L t.1 t.2 (t.1 + (SCAN_SIZE - 1))
            (t.2 + (SCAN_SIZE - 1)) out).2.covers x y
      · rw [if_pos hc, if_pos (Or.inl hc)]
      · rw [if_neg hc, if_neg (fun h => h.elim hc ha)]

/-- When a recorded step is split off, the steps before it are a run of their own that
ends in the buffer the step saw. -/
theorem run_tiles_split (L : Lightness) (ts : List (Int × Int)) (out : bitmap)
    (pre post : List scan_event) (e : scan_event)
    (h : (run_tiles L ts out).2 = pre ++ e :: post) :
    (run_tiles L (ts.take pre.length) out).2 = pre ∧
      (run_tiles L (ts.take pre.length) out).1 = e.seen := by
  induction ts generalizing out pre with
  | nil =>
    exfalso
    have h1 := congrArg List.length h
    simp [run_tiles] at h1
    omega
  | cons t ts ih =>
    cases pre with
    | nil =>
      have h1 : (scan_tile L t.1 t.2 (t.1 + (SCAN_SIZE - 1)) (t.2 + (SCAN_SIZE - 1)) out).2 = e :=
        (List.cons.inj h).1
      rw [scan_tile_event] at h1
      subst h1
      exact ⟨rfl, rfl⟩
    | cons p pre =>
      obtain ⟨h1, h2⟩ := List.cons.inj h
      obtain ⟨h3, h4⟩ := ih _ pre h2
      refine ⟨?_, ?_⟩
      · show _ :: (run_tiles L (ts.take pre.length) _).2 = _
        rw [h3, h1]
      · exact h4

/-! ## Images -/

theorem memcpy_eq (dst src : List pixel) (n : Nat) (hs : src.length = n)
    (hd : dst.length = n) : memcpy dst src n = src := by
  unfold memcpy
  rw [List.take_of_length_le (by omega), List.drop_of_length_le (by omega),
    List.append_nil]

/-- For buffers of the size of the image, `grayfilter_main` is the run over the tiles of
the scan that starts from a copy of the input. -/
theorem grayfilter_run_eq (L : Lightness) (inp out : bitmap) (hi : well_formed inp)
    (ho : well_formed out) (hs : out.size = inp.size) :
    grayfilter_run L inp out = run_tiles L (scan_tiles inp.size.x inp.size.y) inp := by
  unfold grayfilter_run
  rw [memcpy_eq _ _ _ hi (by rw [← hs]; exact ho)]
  have e : ({ out with pixels := inp.pixels } : bitmap) = inp := by
    rw [hs]
  rw [e, grayfilter_loop_eq_run_tiles]

/-- Two images of one size with the same pixel at every coordinate are equal. -/
theorem bitmap_ext (a b : bitmap) (hs : a.size = b.size) (hx : 0 < a.size.x)
    (ha : well_formed a) (hb : well_formed b)
    (h : ∀ x y, in_bounds a x y → GET_PIXEL a x y = GET_PIXEL b x y) : a = b := by
  obtain ⟨sa, pa⟩ := a
  obtain ⟨sb, pb⟩ := b
  simp only at hs
  subst hs
  unfold well_formed at ha hb
  simp only at ha hb hx
  congr 1
  apply List.ext_getElem (by rw [ha, hb])
  intro i h1 h2
  have hi : (i : Int) < sa.x * sa.y := by omega
  have hd0 : 0 ≤ (i : Int) / sa.x := Int.ediv_nonneg (by omega) hx.le
  have hm0 : 0 ≤ (i : Int) % sa.x := Int.emod_nonneg _ (by omega)
  have hm1 : (i : Int) % sa.x < sa.x := Int.emod_lt_of_pos _ hx
  have hdm : sa.x * ((i : Int) / sa.x) + (i : Int) % sa.x = i := Int.ediv_add_emod _ _
  have hd1 : (i : Int) / sa.x < sa.y := by
    by_contra hc
    have : sa.x * sa.y ≤ sa.x * ((i : Int) / sa.x) :=
      Int.mul_le_mul_of_nonneg_left (by omega) hx.le
    omega
  have hbd : in_bounds (⟨sa, pa⟩ : bitmap) ((i : Int) % sa.x) ((i : Int) / sa.x) :=
    ⟨hm0, hm1, hd0, hd1⟩
  have hidx : pixel_index (⟨sa, pa⟩ : bitmap) ((i : Int) % sa.x) ((i : Int) / sa.x) = i := by
    unfold pixel_index
    simp only
    have : (i : Int) / sa.x * sa.x = sa.x * ((i : Int) / sa.x) := by ring
    omega
  have h3 := h _ _ hbd
  unfold GET_PIXEL at h3
  have hidx2 : pixel_index (⟨sa, pb⟩ : bitmap) ((i : Int) % sa.x) ((i : Int) / sa.x) = i := hidx
  rw [hidx, hidx2] at h3
  simp only [List.getD_eq_getElem?_getD] at h3
  rw [List.getElem?_eq_getElem h1, List.getElem?_eq_getElem h2] at h3
  simpa using h3

/-! ## The scan never erases a dark pixel -/

theorem scan_tile_cleared_iff (L : Lightness) (left top right bottom : Int) (out : bitmap) :
    (scan_tile L left top right bottom out).2.cleared = true ↔
      count_pixels_rect L left top right bottom BLACK_MAX out = 0 ∧
        128 ≤ lightness_rect L left top right bottom out := by
  rw [scan_tile_event]
  simp only [decide_eq_true_eq, lt_THRESHOLD_ABS_iff]

theorem scan_invariant_refl (L : Lightness) (inp : bitmap) (hi : well_formed inp) :
    scan_invariant L inp inp :=
  ⟨rfl, hi, fun _ _ _ => Or.inl rfl⟩

theorem scan_invariant_step (L : Lightness) (inp : bitmap) (o : bitmap) (l t : Int)
    (h : scan_invariant L inp o) :
    scan_invariant L inp (scan_tile L l t (l + (SCAN_SIZE - 1)) (t + (SCAN_SIZE - 1)) o).1 := by
  obtain ⟨hs, hw, hp⟩ := h
  refine ⟨by rw [scan_tile_size, hs], scan_tile_well_formed L _ _ _ _ o hw, ?_⟩
  intro x y hb
  have hbo : in_bounds o x y := by
    unfold in_bounds
    rw [hs]
    exact hb
  rw [GET_PIXEL_scan_tile L _ _ _ _ x y o hw hbo]
  by_cases hc : (scan_tile L l t (l + (SCAN_SIZE - 1)) (t + (SCAN_SIZE - 1)) o).2.cleared = true ∧
      (scan_tile L l t (l + (SCAN_SIZE - 1)) (t + (SCAN_SIZE - 1)) o).2.covers x y
  · rw [if_pos hc]
    right
    refine ⟨rfl, ?_⟩
    obtain ⟨h1, h2⟩ := hc
    have h3 := ((count_pixels_rect_eq_zero_iff L _ _ _ _ _ o).1
      ((scan_tile_cleared_iff L _ _ _ _ o).1 h1).1) x y hbo (by
        rw [scan_tile_event] at h2
        exact h2)
    rcases hp x y hb with h4 | ⟨_, h4⟩
    · rw [← h4]
      exact h3
    · exact h4
  · rw [if_neg hc]
    exact hp x y hb

/-- Under the invariant a pixel of the buffer is dark exactly when the pixel of the input
is. -/
theorem scan_invariant_dark (L : Lightness) (inp o : bitmap) (h : scan_invariant L inp o)
    (x y : Int) (hb : in_bounds inp x y) :
    is_dark L (GET_PIXEL o x y) ↔ is_dark L (GET_PIXEL inp x y) := by
  rcases h.2.2 x y hb with h1 | ⟨h1, h2⟩
  · rw [h1]
  · rw [h1]
    exact ⟨fun h3 => absurd h3 (not_is_dark_white L), fun h3 => absurd h3 h2⟩

theorem in_bounds_of_size (a b : bitmap) (hs : a.size = b.size) (x y : Int) :
    in_bounds a x y ↔ in_bounds b x y := by
  unfold in_bounds
  rw [hs]

theorem grayfilter_main_eq (L : Lightness) (inp out : bitmap) (hi : well_formed inp)
    (ho : well_formed out) (hs : out.size = inp.size) :
    grayfilter_main L inp out = (run_tiles L (scan_tiles inp.size.x inp.size.y) inp).1 := by
  unfold grayfilter_main
  rw [grayfilter_run_eq L inp out hi ho hs]

theorem grayfilter_trace_eq (L : Lightness) (inp out : bitmap) (hi : well_formed inp)
    (ho : well_formed out) (hs : out.size = inp.size) :
    grayfilter_trace L inp out = (run_tiles L (scan_tiles inp.size.x inp.size.y) inp).2 := by
  unfold grayfilter_trace
  rw [grayfilter_run_eq L inp out hi ho hs]

/-- The invariant holds whenever a tile is inspected and when `grayfilter_main` returns,
and every recorded step is the step `scan_tile` makes on the buffer it saw. -/
theorem grayfilter_invariant (L : Lightness) (inp out : bitmap) (hi : well_formed inp)
    (ho : well_formed out) (hs : out.size = inp.size) :
    scan_invariant L inp (grayfilter_main L inp out) ∧
      ∀ e ∈ grayfilter_trace L inp out,
        scan_invariant L inp e.seen ∧
          (e.left, e.top) ∈ scan_tiles inp.size.x inp.size.y ∧
          e = (scan_tile L e.left e.top (e.left + (SCAN_SIZE - 1))
            (e.top + (SCAN_SIZE - 1)) e.seen).2 := by
  rw [grayfilter_main_eq L inp out hi ho hs, grayfilter_trace_eq L inp out hi ho hs]
  exact run_tiles_events L (scan_invariant L inp)
    (fun o l t h => scan_invariant_step L inp o l t h) _ inp (scan_invariant_refl L inp hi)

/-- A cleared step saw no dark pixel in the part of its tile that lies in the image. -/
theorem cleared_no_dark (L : Lightness) (e : scan_event)
    (he : e = (scan_tile L e.left e.top (e.left + (SCAN_SIZE - 1))
      (e.top + (SCAN_SIZE - 1)) e.seen).2) (hc : e.cleared = true)
    (x y : Int) (hb : in_bounds e.seen x y) (hcov : e.covers x y) :
    ¬ is_dark L (GET_PIXEL e.seen x y) := by
  rw [he] at hc hcov
  have h1 := ((scan_tile_cleared_iff L _ _ _ _ _).1 hc).1
  rw [scan_tile_event] at hcov
  exact (count_pixels_rect_eq_zero_iff L _ _ _ _ _ _).1 h1 x y hb hcov

/-- The pixels of the output: white where a cleared tile covers them, those of the input
elsewhere. -/
theorem GET_PIXEL_grayfilter_main (L : Lightness) (inp out : bitmap) (hi : well_formed inp)
    (ho : well_formed out) (hs : out.size = inp.size) (x y : Int)
    (hb : in_bounds inp x y) :
    GET_PIXEL (grayfilter_main L inp out) x y =
      if ∃ e ∈ grayfilter_trace L inp out, e.cleared = true ∧ e.covers x y then WHOLE_WHITE
      else GET_PIXEL inp x y := by
  rw [grayfilter_main_eq L inp out hi ho hs, grayfilter_trace_eq L inp out hi ho hs,
    GET_PIXEL_run_tiles L _ inp x y hi hb]

/-! ## The frame of the filter -/

/-- C1.  For images whose buffers hold width times height pixels, every pixel of the
output of `grayfilter_main` equals the pixel of the input at the same coordinates or is
full white, and a pixel that lies in no tile on which `clear_rect` was called equals
the pixel of the input. -/
theorem grayfilter_main_frame (L : Lightness) (inp out : bitmap) (hi : well_formed inp)
    (ho : well_formed out) (hs : out.size = inp.size) (x y : Int)
    (hb : in_bounds inp x y) :
    (GET_PIXEL (grayfilter_main L inp out) x y = GET_PIXEL inp x y ∨
        GET_PIXEL (grayfilter_main L inp out) x y = WHOLE_WHITE) ∧
      ((∀ e ∈ grayfilter_trace L inp out, e.cleared = true → ¬ e.covers x y) →
        GET_PIXEL (grayfilter_main L inp out) x y = GET_PIXEL inp x y) := by
  rw [GET_PIXEL_grayfilter_main L inp out hi ho hs x y hb]
  constructor
  · by_cases h : ∃ e ∈ grayfilter_trace L inp out, e.cleared = true ∧ e.covers x y
    · rw [if_pos h]
      exact Or.inr rfl
    · rw [if_neg h]
      exact Or.inl rfl
  · intro h
    rw [if_neg]
    rintro ⟨e, he, hc, hcov⟩
    exact h e he hc hcov

/-- C2.  When every pixel of the input has a lightness at or below `BLACK_MAX`, the
output of `grayfilter_main` is the input. -/
theorem grayfilter_main_dark_identity (L : Lightness) (inp out : bitmap)
    (hi : well_formed inp) (ho : well_formed out) (hs : out.size = inp.size)
    (hx : 1 ≤ inp.size.x)
    (hd : ∀ x y, in_bounds inp x y →
      (L.of_pixel (GET_PIXEL inp x y) : ℚ) ≤ BLACK_MAX) :
    grayfilter_main L inp out = inp := by
  obtain ⟨⟨h1, h2, _⟩, h4⟩ := grayfilter_invariant L inp out hi ho hs
  apply bitmap_ext _ _ h1 (by rw [h1]; omega) h2 hi
  intro x y hb
  have hbi : in_bounds inp x y := (in_bounds_of_size _ _ h1 x y).1 hb
  rw [GET_PIXEL_grayfilter_main L inp out hi ho hs x y hbi, if_neg]
  rintro ⟨e, he, hc, hcov⟩
  obtain ⟨h5, _, h7⟩ := h4 e he
  have hbe : in_bounds e.seen x y := (in_bounds_of_size _ _ h5.1 x y).2 hbi
  exact cleared_no_dark L e h7 hc x y hbe hcov
    ((scan_invariant_dark L inp e.seen h5 x y hbi).2 (hd x y hbi))

/-- Making pixels white does not lower the result of `lightness_rect` on a tile. -/
theorem lightness_rect_tile_mono (L : Lightness) (inp o : bitmap) (left top : Int)
    (h : scan_invariant L inp o) :
    lightness_rect L left top (left + (SCAN_SIZE - 1)) (top + (SCAN_SIZE - 1)) inp ≤
      lightness_rect L left top (left + (SCAN_SIZE - 1)) (top + (SCAN_SIZE - 1)) o := by
  rw [lightness_rect_tile, lightness_rect_tile]
  apply Int.ediv_le_ediv (by decide)
  apply List.sum_le_sum
  rintro ⟨x, y⟩ _
  unfold GET_PIXEL_LIGHTNESS
  by_cases hb : in_bounds inp x y
  · rw [if_pos hb, if_pos ((in_bounds_of_size _ _ h.1 x y).2 hb)]
    rcases h.2.2 x y hb with h1 | ⟨h1, _⟩
    · rw [h1]
    · rw [h1, L.of_white]
      exact (L.of_pixel_range _).2
  · rw [if_neg hb, if_neg (fun hc => hb ((in_bounds_of_size _ _ h.1 x y).1 hc))]

/-- C3.  When every pixel of the input has a lightness strictly between `BLACK_MAX` and
`WHITE`, and the average `lightness_rect` computes on the input for every tile of the
scan satisfies `WHITE - avg < THRESHOLD_ABS`, every tile of the scan is cleared and
every pixel of the output that lies in a tile of the scan is full white. -/
theorem grayfilter_main_clears_light_gray (L : Lightness) (inp out : bitmap)
    (hi : well_formed inp) (ho : well_formed out) (hs : out.size = inp.size)
    (hl : ∀ x y, in_bounds inp x y →
      BLACK_MAX < (L.of_pixel (GET_PIXEL inp x y) : ℚ) ∧
        L.of_pixel (GET_PIXEL inp x y) < WHITE)
    (ha : ∀ t ∈ scan_tiles inp.size.x inp.size.y,
      (((WHITE - lightness_rect L t.1 t.2 (t.1 + (SCAN_SIZE - 1)) (t.2 + (SCAN_SIZE - 1)) inp
        : Int)) : ℚ) < THRESHOLD_ABS) :
    (∀ e ∈ grayfilter_trace L inp out, e.cleared = true) ∧
      ∀ e ∈ grayfilter_trace L inp out, ∀ x y, in_bounds inp x y → e.covers x y →
        GET_PIXEL (grayfilter_main L inp out) x y = WHOLE_WHITE := by
  have hall : ∀ e ∈ grayfilter_trace L inp out, e.cleared = true := by
    intro e he
    obtain ⟨h5, h6, h7⟩ := (grayfilter_invariant L inp out hi ho hs).2 e he
    rw [h7, scan_tile_cleared_iff]
    constructor
    · rw [count_pixels_rect_eq_zero_iff]
      intro x y hb _ hd
      have hbi : in_bounds inp x y := (in_bounds_of_size _ _ h5.1 x y).1 hb
      have h8 := (scan_invariant_dark L inp e.seen h5 x y hbi).1 hd
      exact absurd h8 (not_le.2 (hl x y hbi).1)
    · have h8 := (lt_THRESHOLD_ABS_iff _).1 (ha _ h6)
      exact le_trans h8 (lightness_rect_tile_mono L inp e.seen e.left e.top h5)
  refine ⟨hall, ?_⟩
  intro e he x y hb hcov
  rw [GET_PIXEL_grayfilter_main L inp out hi ho hs x y hb, if_pos ⟨e, he, hall e he, hcov⟩]

/-! ## The decisions of the scan in terms of the input -/

theorem covers_iff_tile_covers (L : Lightness) (e : scan_event)
    (he : e = (scan_tile L e.left e.top (e.left + (SCAN_SIZE - 1))
      (e.top + (SCAN_SIZE - 1)) e.seen).2) (x y : Int) :
    e.covers x y ↔ tile_covers (e.left, e.top) x y := by
  have h1 : e.right = e.left + (SCAN_SIZE - 1) := by
    conv_lhs => rw [he, scan_tile_event]
  have h2 : e.bottom = e.top + (SCAN_SIZE - 1) := by
    conv_lhs => rw [he, scan_tile_event]
  unfold scan_event.covers tile_covers
  rw [h1, h2]

theorem count_eq_zero_iff_no_dark (L : Lightness) (l t : Int) (o : bitmap) :
    count_pixels_rect L l t (l + (SCAN_SIZE - 1)) (t + (SCAN_SIZE - 1)) BLACK_MAX o = 0 ↔
      no_dark L o (l, t) :=
  count_pixels_rect_eq_zero_iff L _ _ _ _ _ o

/-- When the lightness read outside the image is at least 134, a tile without a dark pixel
is light enough: `lightness_rect` returns at least 128. -/
theorem lightness_rect_ge_of_no_dark (L : Lightness) (l t : Int) (o : bitmap)
    (hout : 134 ≤ L.outside) (h : no_dark L o (l, t)) :
    128 ≤ lightness_rect L l t (l + (SCAN_SIZE - 1)) (t + (SCAN_SIZE - 1)) o := by
  refine le_trans (by decide) (lightness_rect_tile_ge L l t 134 o ?_)
  intro x y hxy
  unfold GET_PIXEL_LIGHTNESS
  by_cases hb : in_bounds o x y
  · rw [if_pos hb]
    have h1 := h x y hb (by
      unfold tile_covers
      simp only
      omega)
    rw [is_dark_iff] at h1
    omega
  · rw [if_neg hb]
    exact hout

theorem cleared_iff_no_dark (L : Lightness) (l t : Int) (o : bitmap)
    (hout : 134 ≤ L.outside) :
    (scan_tile L l t (l + (SCAN_SIZE - 1)) (t + (SCAN_SIZE - 1)) o).2.cleared = true ↔
      no_dark L o (l, t) := by
  rw [scan_tile_cleared_iff, count_eq_zero_iff_no_dark]
  exact ⟨fun h => h.1, fun h => ⟨h, lightness_rect_ge_of_no_dark L l t o hout h⟩⟩

theorem no_dark_of_invariant (L : Lightness) (inp o : bitmap) (h : scan_invariant L inp o)
    (t : Int × Int) : no_dark L o t ↔ no_dark L inp t := by
  unfold no_dark
  constructor
  · intro h1 x y hb hc hd
    exact h1 x y ((in_bounds_of_size _ _ h.1 x y).2 hb) hc
      ((scan_invariant_dark L inp o h x y hb).2 hd)
  · intro h1 x y hb hc hd
    have hbi := (in_bounds_of_size _ _ h.1 x y).1 hb
    exact h1 x y hbi hc ((scan_invariant_dark L inp o h x y hbi).1 hd)

theorem exists_event_of_tile (L : Lightness) (ts : List (Int × Int)) (out : bitmap)
    (t : Int × Int) (ht : t ∈ ts) :
    ∃ e ∈ (run_tiles L ts out).2, (e.left, e.top) = t := by
  have h := run_tiles_tiles L ts out
  rw [← h] at ht
  obtain ⟨e, he, h1⟩ := List.mem_map.1 ht
  exact ⟨e, he, h1⟩

/-- When the lightness read outside the image is at least 134, a pixel of the output is
white if a tile of the scan that covers it has no dark pixel in the input. -/
theorem grayfilter_main_white (L : Lightness) (inp out : bitmap) (hi : well_formed inp)
    (ho : well_formed out) (hs : out.size = inp.size) (hout : 134 ≤ L.outside)
    (x y : Int) (hb : in_bounds inp x y)
    (h : ∃ t ∈ scan_tiles inp.size.x inp.size.y, tile_covers t x y ∧ no_dark L inp t) :
    GET_PIXEL (grayfilter_main L inp out) x y = WHOLE_WHITE := by
  obtain ⟨t, ht, hc, hn⟩ := h
  rw [GET_PIXEL_grayfilter_main L inp out hi ho hs x y hb, if_pos]
  have h1 := exists_event_of_tile L _ inp t ht
  rw [← grayfilter_trace_eq L inp out hi ho hs] at h1
  obtain ⟨e, he, rfl⟩ := h1
  obtain ⟨h5, _, h7⟩ := (grayfilter_invariant L inp out hi ho hs).2 e he
  refine ⟨e, he, ?_, (covers_iff_tile_covers L e h7 x y).2 hc⟩
  rw [h7, cleared_iff_no_dark L _ _ _ hout]
  exact (no_dark_of_invariant L inp e.seen h5 _).2 hn

/-- When the lightness read outside the image is at least 134, a pixel of the output is
the pixel of the input unless a tile of the scan that covers it has no dark pixel in the
input. -/
theorem grayfilter_main_same (L : Lightness) (inp out : bitmap) (hi : well_formed inp)
    (ho : well_formed out) (hs : out.size = inp.size) (hout : 134 ≤ L.outside)
    (x y : Int) (hb : in_bounds inp x y)
    (h : ¬ ∃ t ∈ scan_tiles inp.size.x inp.size.y, tile_covers t x y ∧ no_dark L inp t) :
    GET_PIXEL (grayfilter_main L inp out) x y = GET_PIXEL inp x y := by
  rw [GET_PIXEL_grayfilter_main L inp out hi ho hs x y hb, if_neg]
  rintro ⟨e, he, hc, hcov⟩
  obtain ⟨h5, h6, h7⟩ := (grayfilter_invariant L inp out hi ho hs).2 e he
  apply h
  refine ⟨(e.left, e.top), h6, (covers_iff_tile_covers L e h7 x y).1 hcov, ?_⟩
  rw [h7, cleared_iff_no_dark L _ _ _ hout] at hc
  exact (no_dark_of_invariant L inp e.seen h5 _).1 hc

/-- C4, amended.  Running `grayfilter_main` on the output of a first run yields that
output again when the lightness the macro yields outside the image is at least 134, as
it is for a white surround; a full-white pixel has lightness `WHITE` by
`Lightness.of_white`. -/
theorem grayfilter_main_idempotent (L : Lightness) (inp out out2 : bitmap)
    (hi : well_formed inp) (ho : well_formed out) (hs : out.size = inp.size)
    (ho2 : well_formed out2) (hs2 : out2.size = inp.size) (hx : 1 ≤ inp.size.x)
    (hout : 134 ≤ L.outside) :
    grayfilter_main L (grayfilter_main L inp out) out2 = grayfilter_main L inp out := by
  obtain ⟨h1, h2, h3⟩ := (grayfilter_invariant L inp out hi ho hs).1
  have hinv : scan_invariant L inp (grayfilter_main L inp out) := ⟨h1, h2, h3⟩
  have hs3 : out2.size = (grayfilter_main L inp out).size := by rw [hs2, h1]
  obtain ⟨h4, h5, _⟩ := (grayfilter_invariant L (grayfilter_main L inp out) out2 h2 ho2 hs3).1
  apply bitmap_ext _ _ h4 (by rw [h4, h1]; omega) h5 h2
  intro x y hb
  have hb1 : in_bounds (grayfilter_main L inp out) x y := (in_bounds_of_size _ _ h4 x y).1 hb
  have hbi : in_bounds inp x y := (in_bounds_of_size _ _ h1 x y).1 hb1
  by_cases hc : ∃ t ∈ scan_tiles inp.size.x inp.size.y, tile_covers t x y ∧ no_dark L inp t
  · rw [grayfilter_main_white L inp out hi ho hs hout x y hbi hc]
    apply grayfilter_main_white L _ out2 h2 ho2 hs3 hout x y hb1
    obtain ⟨t, ht, hcov, hn⟩ := hc
    rw [h1]
    exact ⟨t, ht, hcov, (no_dark_of_invariant L inp _ hinv t).2 hn⟩
  · apply grayfilter_main_same L _ out2 h2 ho2 hs3 hout x y hb1
    rintro ⟨t, ht, hcov, hn⟩
    rw [h1] at ht
    exact hc ⟨t, ht, hcov, (no_dark_of_invariant L inp _ hinv t).1 hn⟩

/-! ## Facts about the sample inputs -/

theorem uniform_image_well_formed (w h : Nat) (v : Fin 256) :
    well_formed (uniform_image w h v) := by
  unfold well_formed uniform_image
  simp only [List.length_replicate]
  rw [← Int.natCast_mul, Int.toNat_natCast]

theorem GET_PIXEL_uniform_image_in (w h : Nat) (v : Fin 256) (x y : Int)
    (hb : in_bounds (uniform_image w h v) x y) :
    GET_PIXEL (uniform_image w h v) x y = gray v := by
  have h1 := pixel_index_lt _ x y (uniform_image_well_formed w h v) hb
  unfold GET_PIXEL
  rw [List.getD_eq_getElem?_getD, List.getElem?_eq_getElem h1]
  simp [uniform_image]

/-! ## The tiles of the scan -/

theorem mem_scan_tiles (w h : Int) (t : Int × Int) :
    t ∈ scan_tiles w h ↔
      ∃ i j : Nat, i ≤ scan_columns w ∧ j ≤ scan_rows h ∧
        t = (SCAN_STEP * (i : Int), SCAN_STEP * (j : Int)) := by
  unfold scan_tiles
  simp only [List.mem_flatMap, List.mem_map, List.mem_range]
  constructor
  · rintro ⟨j, hj, i, hi, rfl⟩
    exact ⟨i, j, by omega, by omega, rfl⟩
  · rintro ⟨i, j, hi, hj, rfl⟩
    exact ⟨j, by omega, i, by omega, rfl⟩

/-- The tiles of the scan start at non-negative coordinates, at most 19 pixels past the
right border and above the lower border of the image. -/
theorem scan_tiles_bounds (w h : Int) (hw : 1 ≤ w) (hh : 1 ≤ h) (t : Int × Int)
    (ht : t ∈ scan_tiles w h) : (0 ≤ t.1 ∧ t.1 ≤ w + 19) ∧ (0 ≤ t.2 ∧ t.2 < h) := by
  obtain ⟨i, j, hi, hj, rfl⟩ := (mem_scan_tiles w h t).1 ht
  unfold scan_columns at hi
  unfold scan_rows at hj
  simp only [SCAN_STEP]
  omega

theorem run_tiles_rects (L : Lightness) (ts : List (Int × Int)) (out : bitmap) :
    (run_tiles L ts out).2.map (fun e => (e.left, e.top, e.right, e.bottom)) =
      ts.map (fun t => (t.1, t.2, t.1 + (SCAN_SIZE - 1), t.2 + (SCAN_SIZE - 1))) := by
  induction ts generalizing out with
  | nil => rfl
  | cons t ts ih =>
    show (_ :: (run_tiles L ts _).2).map _ = _
    rw [List.map_cons, ih, scan_tile_event, List.map_cons]

/-- The rectangles of the tiles `grayfilter_main` inspects, in order. -/
theorem grayfilter_trace_rects (L : Lightness) (inp out : bitmap) (hi : well_formed inp)
    (ho : well_formed out) (hs : out.size = inp.size) :
    (grayfilter_trace L inp out).map (fun e => (e.left, e.top, e.right, e.bottom)) =
      (scan_tiles inp.size.x inp.size.y).map
        (fun t => (t.1, t.2, t.1 + (SCAN_SIZE - 1), t.2 + (SCAN_SIZE - 1))) := by
  rw [grayfilter_trace_eq L inp out hi ho hs, run_tiles_rects]

/-- The last tile of the first row of the scan lies to the right of the image; its count
is zero, so `lightness_rect` is called on it and reads outside the image. -/
theorem reads_outside (L : Lightness) (inp out : bitmap) (hi : well_formed inp)
    (ho : well_formed out) (hs : out.size = inp.size) :
    ∃ e ∈ grayfilter_trace L inp out, e.lightness ≠ none ∧
      ∃ c ∈ lightness_rect_coords e.left e.top e.right e.bottom, ¬ in_bounds inp c.1 c.2 := by
  have ht : (SCAN_STEP * ((scan_columns inp.size.x : Nat) : Int), SCAN_STEP * ((0 : Nat) : Int)) ∈
      scan_tiles inp.size.x inp.size.y :=
    (mem_scan_tiles _ _ _).2 ⟨_, _, le_refl _, Nat.zero_le _, rfl⟩
  have h1 := exists_event_of_tile L _ inp _ ht
  rw [← grayfilter_trace_eq L inp out hi ho hs] at h1
  obtain ⟨e, he, h2⟩ := h1
  obtain ⟨h5, _, h7⟩ := (grayfilter_invariant L inp out hi ho hs).2 e he
  have hl : e.left = SCAN_STEP * ((scan_columns inp.size.x : Nat) : Int) := (Prod.mk.inj h2).1
  have hge : inp.size.x ≤ e.left := by
    rw [hl]
    unfold SCAN_STEP scan_columns
    omega
  have hc : count_pixels_rect L e.left e.top (e.left + (SCAN_SIZE - 1))
      (e.top + (SCAN_SIZE - 1)) BLACK_MAX e.seen = 0 := by
    rw [count_pixels_rect_eq_zero_iff]
    intro x y hb hin
    exfalso
    have := ((in_bounds_of_size _ _ h5.1 x y).1 hb).2.1
    omega
  refine ⟨e, he, ?_, (e.left, e.top), ?_, ?_⟩
  · rw [h7, scan_tile_event]
    simp only [hc, if_true]
    exact Option.some_ne_none _
  · rw [h7, scan_tile_event]
    rw [mem_lightness_rect_coords]
    simp only [SCAN_SIZE]
    omega
  · intro hb
    have := hb.2.1
    simp only at this
    omega

/-! ## Accesses to the buffer -/

/-- C5, amended.  In every scan step the coordinates `count_pixels_rect` reads and
`clear_rect` writes lie in the image and index the buffer within its length.  The
coordinates at which `lightness_rect` evaluates `GET_PIXEL_LIGHTNESS` are not negative
and reach at most 67 columns and 47 rows past the image; the buffer is indexed, within
its length, only at those that lie in the image, and the others yield the outside
value. -/
theorem grayfilter_main_accesses (L : Lightness) (inp out : bitmap) (hi : well_formed inp)
    (ho : well_formed out) (hs : out.size = inp.size) (hx : 1 ≤ inp.size.x)
    (hy : 1 ≤ inp.size.y) :
    ∀ e ∈ grayfilter_trace L inp out,
      (∀ c ∈ clamped_rect e.seen e.left e.top e.right e.bottom,
        in_bounds inp c.1 c.2 ∧ pixel_index e.seen c.1 c.2 < e.seen.pixels.length) ∧
      (∀ c ∈ lightness_rect_coords e.left e.top e.right e.bottom,
        (0 ≤ c.1 ∧ c.1 ≤ inp.size.x + 67) ∧ (0 ≤ c.2 ∧ c.2 ≤ inp.size.y + 47) ∧
        (in_bounds inp c.1 c.2 → pixel_index e.seen c.1 c.2 < e.seen.pixels.length) ∧
        (¬ in_bounds inp c.1 c.2 → GET_PIXEL_LIGHTNESS L e.seen c.1 c.2 = L.outside)) := by
  intro e he
  obtain ⟨h5, h6, h7⟩ := (grayfilter_invariant L inp out hi ho hs).2 e he
  have hb := scan_tiles_bounds _ _ hx hy _ h6
  simp only at hb
  have hr : e.right = e.left + (SCAN_SIZE - 1) := by
    conv_lhs => rw [h7, scan_tile_event]
  have hbt : e.bottom = e.top + (SCAN_SIZE - 1) := by
    conv_lhs => rw [h7, scan_tile_event]
  constructor
  · rintro ⟨x, y⟩ hc
    obtain ⟨h8, _⟩ := (mem_clamped_rect _ _ _ _ _ _ _).1 hc
    exact ⟨(in_bounds_of_size _ _ h5.1 x y).1 h8, pixel_index_lt _ x y h5.2.1 h8⟩
  · rintro ⟨x, y⟩ hc
    rw [hr, hbt, mem_lightness_rect_coords] at hc
    simp only [SCAN_SIZE] at hc
    refine ⟨by simp only; omega, by simp only; omega, ?_, ?_⟩
    · intro h8
      exact pixel_index_lt _ x y h5.2.1 ((in_bounds_of_size _ _ h5.1 x y).2 h8)
    · intro h8
      unfold GET_PIXEL_LIGHTNESS
      rw [if_neg (fun h9 => h8 ((in_bounds_of_size _ _ h5.1 x y).1 h9))]

/-- C5, as stated, fails on the image of one black pixel: `lightness_rect` is called on
a tile with coordinates outside the image. -/
theorem lightness_rect_reads_outside_example :
    ¬ (∀ e ∈ grayfilter_trace sample_lightness (uniform_image 1 1 0) (uniform_image 1 1 0),
      e.lightness ≠ none →
        ∀ c ∈ lightness_rect_coords e.left e.top e.right e.bottom,
          in_bounds (uniform_image 1 1 0) c.1 c.2) := by
  intro h
  obtain ⟨e, he, h1, c, hc, h2⟩ := reads_outside sample_lightness (uniform_image 1 1 0)
    (uniform_image 1 1 0) (uniform_image_well_formed 1 1 0) (uniform_image_well_formed 1 1 0) rfl
  exact h2 (h e he h1 c hc)

/-- The amended C5 applies to the image of one black pixel. -/
theorem grayfilter_main_accesses_witness :
    (well_formed (uniform_image 1 1 0) ∧ 1 ≤ (uniform_image 1 1 0).size.x ∧
      1 ≤ (uniform_image 1 1 0).size.y) ∧
    ∀ e ∈ grayfilter_trace sample_lightness (uniform_image 1 1 0) (uniform_image 1 1 0),
      (∀ c ∈ clamped_rect e.seen e.left e.top e.right e.bottom,
        in_bounds (uniform_image 1 1 0) c.1 c.2 ∧
          pixel_index e.seen c.1 c.2 < e.seen.pixels.length) ∧
      (∀ c ∈ lightness_rect_coords e.left e.top e.right e.bottom,
        (0 ≤ c.1 ∧ c.1 ≤ (uniform_image 1 1 0).size.x + 67) ∧
        (0 ≤ c.2 ∧ c.2 ≤ (uniform_image 1 1 0).size.y + 47) ∧
        (in_bounds (uniform_image 1 1 0) c.1 c.2 →
          pixel_index e.seen c.1 c.2 < e.seen.pixels.length) ∧
        (¬ in_bounds (uniform_image 1 1 0) c.1 c.2 →
          GET_PIXEL_LIGHTNESS sample_lightness e.seen c.1 c.2 = sample_lightness.outside)) :=
  ⟨⟨by decide, by decide, by decide⟩,
    grayfilter_main_accesses sample_lightness (uniform_image 1 1 0) (uniform_image 1 1 0)
      (by decide) (by decide) rfl (by decide) (by decide)⟩

/-! ## The tiles of a 100 by 100 image -/

theorem scan_tiles_100 : scan_tiles 100 100 =
    ([0, 20, 40, 60] : List Int).flatMap (fun t =>
      ([0, 20, 40, 60, 80, 100] : List Int).map (fun l => (l, t))) := by
  decide

/-- C6, amended.  For a 100 by 100 image the tiles `grayfilter_main` inspects are, in
order, the tiles `(left, top, left + 49, top + 49)` with `top` in 0, 20, 40, 60 and, for
each, `left` in 0, 20, 40, 60, 80, 100. -/
theorem grayfilter_trace_100 (L : Lightness) (inp out : bitmap) (hi : well_formed inp)
    (ho : well_formed out) (hs : out.size = inp.size) (h100 : inp.size = ⟨100, 100⟩) :
    (grayfilter_trace L inp out).map (fun e => (e.left, e.top, e.right, e.bottom)) =
      ([0, 20, 40, 60] : List Int).flatMap (fun t =>
        ([0, 20, 40, 60, 80, 100] : List Int).map (fun l => (l, t, l + 49, t + 49))) := by
  rw [grayfilter_trace_rects L inp out hi ho hs, h100]
  simp only []
  rw [scan_tiles_100]
  decide

/-- C6, as stated, fails on the white 100 by 100 image: the tile with left edge 100 is
inspected. -/
theorem grayfilter_trace_100_example :
    ¬ (∀ l t r b : Int,
      (∃ e ∈ grayfilter_trace sample_lightness (uniform_image 100 100 255)
          (uniform_image 100 100 255),
        e.left = l ∧ e.top = t ∧ e.right = r ∧ e.bottom = b) ↔
      (l ∈ ([0, 20, 40, 60, 80] : List Int) ∧ t ∈ ([0, 20, 40, 60, 80] : List Int) ∧
        r = l + 49 ∧ b = t + 49)) := by
  intro h
  have h1 : ((100 : Int), (0 : Int), (149 : Int), (49 : Int)) ∈
      (grayfilter_trace sample_lightness (uniform_image 100 100 255)
        (uniform_image 100 100 255)).map (fun e => (e.left, e.top, e.right, e.bottom)) := by
    rw [grayfilter_trace_rects _ _ _ (uniform_image_well_formed 100 100 255)
      (uniform_image_well_formed 100 100 255) rfl]
    show _ ∈ (scan_tiles 100 100).map _
    rw [scan_tiles_100]
    decide
  obtain ⟨e, he, h2⟩ := List.mem_map.1 h1
  simp only [Prod.mk.injEq] at h2
  have h3 := (h 100 0 149 49).1 ⟨e, he, h2.1, h2.2.1, h2.2.2.1, h2.2.2.2⟩
  exact absurd h3.1 (by decide)

/-- The amended C6 applies to the white 100 by 100 image. -/
theorem grayfilter_trace_100_witness :
    (well_formed (uniform_image 100 100 255) ∧
      (uniform_image 100 100 255).size = ⟨100, 100⟩) ∧
    (grayfilter_trace sample_lightness (uniform_image 100 100 255)
        (uniform_image 100 100 255)).map (fun e => (e.left, e.top, e.right, e.bottom)) =
      ([0, 20, 40, 60] : List Int).flatMap (fun t =>
        ([0, 20, 40, 60, 80, 100] : List Int).map (fun l => (l, t, l + 49, t + 49))) :=
  ⟨⟨uniform_image_well_formed 100 100 255, rfl⟩,
    grayfilter_trace_100 sample_lightness (uniform_image 100 100 255)
      (uniform_image 100 100 255) (uniform_image_well_formed 100 100 255)
      (uniform_image_well_formed 100 100 255) rfl rfl⟩

/-! ## Coverage -/

/-- C7.  Every pixel of an image of width and height at least 1 lies in a tile
`grayfilter_main` inspects. -/
theorem grayfilter_trace_covers (L : Lightness) (inp out : bitmap) (hi : well_formed inp)
    (ho : well_formed out) (hs : out.size = inp.size) (x y : Int)
    (hb : in_bounds inp x y) :
    ∃ e ∈ grayfilter_trace L inp out, e.covers x y := by
  obtain ⟨hx0, hx1, hy0, hy1⟩ := hb
  have ht : (SCAN_STEP * (((x / 20).toNat : Nat) : Int),
      SCAN_STEP * ((min (y / 20).toNat (scan_rows inp.size.y) : Nat) : Int)) ∈
      scan_tiles inp.size.x inp.size.y := by
    refine (mem_scan_tiles _ _ _).2 ⟨_, _, ?_, Nat.min_le_right _ _, rfl⟩
    unfold scan_columns
    omega
  have h1 := exists_event_of_tile L _ inp _ ht
  rw [← grayfilter_trace_eq L inp out hi ho hs] at h1
  obtain ⟨e, he, h2⟩ := h1
  obtain ⟨_, _, h7⟩ := (grayfilter_invariant L inp out hi ho hs).2 e he
  refine ⟨e, he, (covers_iff_tile_covers L e h7 x y).2 ?_⟩
  rw [h2]
  unfold tile_covers
  simp only [SCAN_STEP, SCAN_SIZE]
  have hm : min (y / 20).toNat (scan_rows inp.size.y) = (y / 20).toNat ∨
      (min (y / 20).toNat (scan_rows inp.size.y) = scan_rows inp.size.y ∧
        scan_rows inp.size.y ≤ (y / 20).toNat) := by
    rcases Nat.le_total (y / 20).toNat (scan_rows inp.size.y) with h | h
    · exact Or.inl (Nat.min_eq_left h)
    · exact Or.inr ⟨Nat.min_eq_right h, h⟩
  unfold scan_rows at hm
  unfold scan_rows
  rcases hm with hm | ⟨hm, hle⟩
  · rw [hm]
    omega
  · rw [hm]
    omega

/-! ## Termination -/

theorem scan_tiles_pairwise (w h : Int) : List.Pairwise cursor_lt (scan_tiles w h) := by
  unfold scan_tiles
  rw [List.pairwise_flatMap]
  constructor
  · intro j _
    rw [List.pairwise_map]
    refine List.Pairwise.imp ?_ (List.pairwise_lt_range _)
    intro a b hab
    right
    refine ⟨rfl, ?_⟩
    simp only [SCAN_STEP]
    omega
  · refine List.Pairwise.imp ?_ (List.pairwise_lt_range _)
    intro a b hab x hx y hy
    obtain ⟨i, _, rfl⟩ := List.mem_map.1 hx
    obtain ⟨i', _, rfl⟩ := List.mem_map.1 hy
    left
    simp only [SCAN_STEP]
    omega

theorem length_scan_tiles (w h : Int) :
    (scan_tiles w h).length = (scan_rows h + 1) * (scan_columns w + 1) := by
  unfold scan_tiles
  rw [List.length_flatMap]
  have e : (List.length ∘ fun (j : Nat) => (List.range (scan_columns w + 1)).map
      (fun (i : Nat) => (SCAN_STEP * (i : Int), SCAN_STEP * (j : Int)))) =
      fun _ => scan_columns w + 1 := by
    funext j
    simp
  rw [e, List.map_const', List.sum_replicate, List.length_range]
  simp

/-- The cursor stays in the range of a 32-bit `int` for images of width up to
`2 ^ 31 - 69` and height up to `2 ^ 31 - 49`: no tile starts left of or above the
origin, and none reaches further than 68 columns or 48 rows past the image. -/
theorem cursor_no_overflow (L : Lightness) (inp out : bitmap) (hi : well_formed inp)
    (ho : well_formed out) (hs : out.size = inp.size) (hx : 1 ≤ inp.size.x)
    (hy : 1 ≤ inp.size.y) :
    ∀ e ∈ grayfilter_trace L inp out,
      (0 ≤ e.left ∧ e.right = e.left + 49 ∧ e.right ≤ inp.size.x + 68) ∧
        (0 ≤ e.top ∧ e.bottom = e.top + 49 ∧ e.bottom ≤ inp.size.y + 48) := by
  intro e he
  obtain ⟨_, h6, h7⟩ := (grayfilter_invariant L inp out hi ho hs).2 e he
  have hb := scan_tiles_bounds _ _ hx hy _ h6
  simp only at hb
  have hr : e.right = e.left + (SCAN_SIZE - 1) := by
    conv_lhs => rw [h7, scan_tile_event]
  have hbt : e.bottom = e.top + (SCAN_SIZE - 1) := by
    conv_lhs => rw [h7, scan_tile_event]
  simp only [SCAN_SIZE] at hr hbt
  omega

/-- C8.  For an image of width and height at least 1, small enough for the cursor not to
overflow, the loop of `grayfilter_main` returns after a number of passes that the size of
the image determines; from each pass to the next the cursor `(top, left)` increases in
lexicographic order, and every value the cursor takes fits a 32-bit `int`. -/
theorem grayfilter_main_terminates (L : Lightness) (inp out : bitmap) (hi : well_formed inp)
    (ho : well_formed out) (hs : out.size = inp.size) (hx : 1 ≤ inp.size.x)
    (hy : 1 ≤ inp.size.y) (hxm : inp.size.x + 68 < 2 ^ 31) (hym : inp.size.y + 48 < 2 ^ 31) :
    (grayfilter_trace L inp out).length =
        (scan_rows inp.size.y + 1) * (scan_columns inp.size.x + 1) ∧
      List.Chain' (fun a b : scan_event => a.top < b.top ∨ (a.top = b.top ∧ a.left < b.left))
        (grayfilter_trace L inp out) ∧
      ∀ e ∈ grayfilter_trace L inp out,
        (0 ≤ e.left ∧ e.left < 2 ^ 31) ∧ (0 ≤ e.right ∧ e.right < 2 ^ 31) ∧
          (0 ≤ e.top ∧ e.top < 2 ^ 31) ∧ (0 ≤ e.bottom ∧ e.bottom < 2 ^ 31) := by
  refine ⟨?_, ?_, ?_⟩
  · have h := congrArg List.length (run_tiles_tiles L (scan_tiles inp.size.x inp.size.y) inp)
    rw [List.length_map, length_scan_tiles] at h
    rw [grayfilter_trace_eq L inp out hi ho hs]
    exact h
  · apply List.Pairwise.chain'
    have h := scan_tiles_pairwise inp.size.x inp.size.y
    rw [← run_tiles_tiles L (scan_tiles inp.size.x inp.size.y) inp, List.pairwise_map] at h
    rw [grayfilter_trace_eq L inp out hi ho hs]
    exact h
  · intro e he
    have h := cursor_no_overflow L inp out hi ho hs hx hy e he
    omega

/-! ## What a tile is inspected on -/

/-- C9, amended.  When a tile is inspected, a pixel of `out` is the pixel of the input
unless a tile inspected before that was cleared covers it; then it is full white. -/
theorem seen_pixels (L : Lightness) (inp out : bitmap) (hi : well_formed inp)
    (ho : well_formed out) (hs : out.size = inp.size) (pre post : List scan_event)
    (e : scan_event) (h : grayfilter_trace L inp out = pre ++ e :: post) (x y : Int)
    (hb : in_bounds inp x y) :
    GET_PIXEL e.seen x y =
      if ∃ p ∈ pre, p.cleared = true ∧ p.covers x y then WHOLE_WHITE
      else GET_PIXEL inp x y := by
  rw [grayfilter_trace_eq L inp out hi ho hs] at h
  obtain ⟨h1, h2⟩ := run_tiles_split L _ inp pre post e h
  have h3 := GET_PIXEL_run_tiles L ((scan_tiles inp.size.x inp.size.y).take pre.length) inp
    x y hi hb
  rw [h2] at h3
  rw [h3]
  simp only [h1]

theorem scan_tiles_21_1 : scan_tiles 21 1 = [(0, 0), (20, 0), (40, 0)] := by
  decide

theorem sample_no_dark (w h : Nat) (t : Int × Int) :
    no_dark sample_lightness (uniform_image w h 200) t := by
  intro x y hb _
  rw [GET_PIXEL_uniform_image_in w h 200 x y hb, is_dark_iff]
  decide

/-- C9, as stated, fails on the 21 by 1 image of light gray pixels: the first tile is
cleared, and the second tile is inspected with the pixel `(20, 0)` already white. -/
theorem seen_pixels_example :
    ¬ (∀ e ∈ grayfilter_trace sample_lightness (uniform_image 21 1 200) (uniform_image 21 1 200),
      ∀ x y, in_bounds (uniform_image 21 1 200) x y → e.covers x y →
        GET_PIXEL e.seen x y = GET_PIXEL (uniform_image 21 1 200) x y) := by
  intro h
  have hw := uniform_image_well_formed 21 1 200
  have hb : in_bounds (uniform_image 21 1 200) 20 0 := by decide
  have hc : (scan_tile sample_lightness 0 0 (0 + (SCAN_SIZE - 1)) (0 + (SCAN_SIZE - 1))
      (uniform_image 21 1 200)).2.cleared = true :=
    (cleared_iff_no_dark sample_lightness 0 0 _ (by decide)).2 (sample_no_dark 21 1 (0, 0))
  have h1 := h (scan_tile sample_lightness 20 0 (20 + (SCAN_SIZE - 1)) (0 + (SCAN_SIZE - 1))
      (scan_tile sample_lightness 0 0 (0 + (SCAN_SIZE - 1)) (0 + (SCAN_SIZE - 1))
        (uniform_image 21 1 200)).1).2 (by
      rw [grayfilter_trace_eq _ _ _ hw hw rfl]
      show _ ∈ (run_tiles sample_lightness (scan_tiles 21 1) (uniform_image 21 1 200)).2
      rw [scan_tiles_21_1]
      exact List.mem_cons_of_mem _ (List.mem_cons_self _ _)) 20 0 hb (by
      rw [scan_tile_event]
      decide)
  rw [scan_tile_event] at h1
  simp only at h1
  rw [GET_PIXEL_scan_tile sample_lightness _ _ _ _ 20 0 _ hw hb, if_pos ⟨hc, by
    rw [scan_tile_event]
    decide⟩, GET_PIXEL_uniform_image_in 21 1 200 20 0 hb] at h1
  exact absurd h1 (by decide)

/-- The amended C9 applies to the second tile of the image of one black pixel. -/
theorem seen_pixels_witness :
    (well_formed (uniform_image 1 1 0) ∧ in_bounds (uniform_image 1 1 0) 0 0 ∧
      grayfilter_trace sample_lightness (uniform_image 1 1 0) (uniform_image 1 1 0) =
        [(scan_tile sample_lightness 0 0 49 49 (uniform_image 1 1 0)).2] ++
          (scan_tile sample_lightness 20 0 69 49
            (scan_tile sample_lightness 0 0 49 49 (uniform_image 1 1 0)).1).2 :: []) ∧
    GET_PIXEL (scan_tile sample_lightness 20 0 69 49
        (scan_tile sample_lightness 0 0 49 49 (uniform_image 1 1 0)).1).2.seen 0 0 =
      if ∃ p ∈ [(scan_tile sample_lightness 0 0 49 49 (uniform_image 1 1 0)).2],
        p.cleared = true ∧ p.covers 0 0 then WHOLE_WHITE
      else GET_PIXEL (uniform_image 1 1 0) 0 0 :=
  have h : grayfilter_trace sample_lightness (uniform_image 1 1 0) (uniform_image 1 1 0) =
      [(scan_tile sample_lightness 0 0 49 49 (uniform_image 1 1 0)).2] ++
        (scan_tile sample_lightness 20 0 69 49
          (scan_tile sample_lightness 0 0 49 49 (uniform_image 1 1 0)).1).2 :: [] := by
    rw [grayfilter_trace_eq _ _ _ (uniform_image_well_formed 1 1 0)
      (uniform_image_well_formed 1 1 0) rfl]
    have e : scan_tiles (uniform_image 1 1 0).size.x (uniform_image 1 1 0).size.y =
        [(0, 0), (20, 0)] := by decide
    rw [e]
    rfl
  ⟨⟨by decide, by decide, h⟩,
    seen_pixels sample_lightness (uniform_image 1 1 0) (uniform_image 1 1 0) (by decide)
      (by decide) rfl _ _ _ h 0 0 (by decide)⟩

/-! ## The decision on one tile -/

/-- C10.  One pass through the body of the loop calls `clear_rect` on the tile exactly
when `count_pixels_rect` reports no pixel of lightness at or below `BLACK_MAX` and
`WHITE - lightness_rect` is below `THRESHOLD_ABS`, that is, when no pixel of the tile in
the image has a lightness of at most 170 and the integer average is at least 128;
otherwise it leaves `out` as it is. -/
theorem scan_tile_decision (L : Lightness) (left top right bottom : Int) (out : bitmap) :
    ((scan_tile L left top right bottom out).2.cleared = true ↔
        count_pixels_rect L left top right bottom BLACK_MAX out = 0 ∧
          (((WHITE - lightness_rect L left top right bottom out : Int)) : ℚ) < THRESHOLD_ABS) ∧
      ((scan_tile L left top right bottom out).2.cleared = true ↔
        (∀ x y, in_bounds out x y → left ≤ x ∧ x ≤ right ∧ top ≤ y ∧ y ≤ bottom →
          ¬ L.of_pixel (GET_PIXEL out x y) ≤ 170) ∧
          128 ≤ lightness_rect L left top right bottom out) ∧
      ((scan_tile L left top right bottom out).2.cleared = true →
        (scan_tile L left top right bottom out).1 = clear_rect out left top right bottom) ∧
      ((scan_tile L left top right bottom out).2.cleared = false →
        (scan_tile L left top right bottom out).1 = out) := by
  refine ⟨?_, ?_, ?_, ?_⟩
  · rw [scan_tile_cleared_iff, lt_THRESHOLD_ABS_iff]
  · rw [scan_tile_cleared_iff, count_pixels_rect_eq_zero_iff]
    simp only [le_BLACK_MAX_iff]
  · intro h
    rw [scan_tile_out, if_pos h]
  · intro h
    rw [scan_tile_out, if_neg (by simp [h])]

/-! ## The theorems at sample inputs -/

/-- C1 applies to the image of one dark gray pixel. -/
theorem grayfilter_main_frame_witness :
    (well_formed (uniform_image 1 1 100) ∧ well_formed (uniform_image 1 1 0) ∧
      (uniform_image 1 1 0).size = (uniform_image 1 1 100).size ∧
      in_bounds (uniform_image 1 1 100) 0 0) ∧
    ((GET_PIXEL (grayfilter_main sample_lightness (uniform_image 1 1 100)
          (uniform_image 1 1 0)) 0 0 = GET_PIXEL (uniform_image 1 1 100) 0 0 ∨
        GET_PIXEL (grayfilter_main sample_lightness (uniform_image 1 1 100)
          (uniform_image 1 1 0)) 0 0 = WHOLE_WHITE) ∧
      ((∀ e ∈ grayfilter_trace sample_lightness (uniform_image 1 1 100) (uniform_image 1 1 0),
          e.cleared = true → ¬ e.covers 0 0) →
        GET_PIXEL (grayfilter_main sample_lightness (uniform_image 1 1 100)
          (uniform_image 1 1 0)) 0 0 = GET_PIXEL (uniform_image 1 1 100) 0 0)) :=
  ⟨⟨by decide, by decide, rfl, by decide⟩,
    grayfilter_main_frame sample_lightness (uniform_image 1 1 100) (uniform_image 1 1 0)
      (by decide) (by decide) rfl 0 0 (by decide)⟩

theorem sample_all_dark (x y : Int) (hb : in_bounds (uniform_image 1 1 0) x y) :
    (sample_lightness.of_pixel (GET_PIXEL (uniform_image 1 1 0) x y) : ℚ) ≤ BLACK_MAX := by
  rw [GET_PIXEL_uniform_image_in 1 1 0 x y hb, le_BLACK_MAX_iff]
  decide

/-- C2 applies to the image of one black pixel. -/
theorem grayfilter_main_dark_identity_witness :
    (well_formed (uniform_image 1 1 0) ∧ 1 ≤ (uniform_image 1 1 0).size.x ∧
      ∀ x y, in_bounds (uniform_image 1 1 0) x y →
        (sample_lightness.of_pixel (GET_PIXEL (uniform_image 1 1 0) x y) : ℚ) ≤ BLACK_MAX) ∧
    grayfilter_main sample_lightness (uniform_image 1 1 0) (uniform_image 1 1 0) =
      uniform_image 1 1 0 :=
  ⟨⟨by decide, by decide, sample_all_dark⟩,
    grayfilter_main_dark_identity sample_lightness (uniform_image 1 1 0) (uniform_image 1 1 0)
      (by decide) (by decide) rfl (by decide) sample_all_dark⟩

theorem sample_all_light (x y : Int) (hb : in_bounds (uniform_image 1 1 200) x y) :
    BLACK_MAX < (sample_lightness.of_pixel (GET_PIXEL (uniform_image 1 1 200) x y) : ℚ) ∧
      sample_lightness.of_pixel (GET_PIXEL (uniform_image 1 1 200) x y) < WHITE := by
  rw [GET_PIXEL_uniform_image_in 1 1 200 x y hb]
  refine ⟨not_le.1 (fun h => ?_), by decide⟩
  rw [le_BLACK_MAX_iff] at h
  exact absurd h (by decide)

theorem sample_light_average (t : Int × Int) :
    (((WHITE - lightness_rect sample_lightness t.1 t.2 (t.1 + (SCAN_SIZE - 1))
      (t.2 + (SCAN_SIZE - 1)) (uniform_image 1 1 200) : Int)) : ℚ) < THRESHOLD_ABS := by
  rw [lt_THRESHOLD_ABS_iff]
  exact lightness_rect_ge_of_no_dark sample_lightness t.1 t.2 _ (by decide)
    (sample_no_dark 1 1 (t.1, t.2))

/-- C3 applies to the image of one light gray pixel. -/
theorem grayfilter_main_clears_light_gray_witness :
    (well_formed (uniform_image 1 1 200) ∧
      (∀ x y, in_bounds (uniform_image 1 1 200) x y →
        BLACK_MAX < (sample_lightness.of_pixel (GET_PIXEL (uniform_image 1 1 200) x y) : ℚ) ∧
          sample_lightness.of_pixel (GET_PIXEL (uniform_image 1 1 200) x y) < WHITE) ∧
      (∀ t ∈ scan_tiles (uniform_image 1 1 200).size.x (uniform_image 1 1 200).size.y,
        (((WHITE - lightness_rect sample_lightness t.1 t.2 (t.1 + (SCAN_SIZE - 1))
          (t.2 + (SCAN_SIZE - 1)) (uniform_image 1 1 200) : Int)) : ℚ) < THRESHOLD_ABS)) ∧
    ((∀ e ∈ grayfilter_trace sample_lightness (uniform_image 1 1 200) (uniform_image 1 1 200),
        e.cleared = true) ∧
      ∀ e ∈ grayfilter_trace sample_lightness (uniform_image 1 1 200) (uniform_image 1 1 200),
        ∀ x y, in_bounds (uniform_image 1 1 200) x y → e.covers x y →
          GET_PIXEL (grayfilter_main sample_lightness (uniform_image 1 1 200)
            (uniform_image 1 1 200)) x y = WHOLE_WHITE) :=
  ⟨⟨by decide, sample_all_light, fun t _ => sample_light_average t⟩,
    grayfilter_main_clears_light_gray sample_lightness (uniform_image 1 1 200)
      (uniform_image 1 1 200) (by decide) (by decide) rfl sample_all_light
      (fun t _ => sample_light_average t)⟩

/-- The amended C4 applies to the 50 by 50 image of light gray pixels, which the first
run makes white. -/
theorem grayfilter_main_idempotent_witness :
    (well_formed (uniform_image 50 50 200) ∧ 1 ≤ (uniform_image 50 50 200).size.x ∧
      134 ≤ sample_lightness.outside) ∧
    grayfilter_main sample_lightness
        (grayfilter_main sample_lightness (uniform_image 50 50 200) (uniform_image 50 50 200))
        (uniform_image 50 50 200) =
      grayfilter_main sample_lightness (uniform_image 50 50 200) (uniform_image 50 50 200) :=
  ⟨⟨uniform_image_well_formed 50 50 200, by decide, by decide⟩,
    grayfilter_main_idempotent sample_lightness (uniform_image 50 50 200)
      (uniform_image 50 50 200) (uniform_image 50 50 200) (uniform_image_well_formed 50 50 200)
      (uniform_image_well_formed 50 50 200) rfl (uniform_image_well_formed 50 50 200) rfl
      (by decide) (by decide)⟩

/-- C7 applies to the pixel of the image of one black pixel. -/
theorem grayfilter_trace_covers_witness :
    (well_formed (uniform_image 1 1 0) ∧ in_bounds (uniform_image 1 1 0) 0 0) ∧
    ∃ e ∈ grayfilter_trace sample_lightness (uniform_image 1 1 0) (uniform_image 1 1 0),
      e.covers 0 0 :=
  ⟨⟨by decide, by decide⟩,
    grayfilter_trace_covers sample_lightness (uniform_image 1 1 0) (uniform_image 1 1 0)
      (by decide) (by decide) rfl 0 0 (by decide)⟩

/-- C8 applies to the image of one black pixel. -/
theorem grayfilter_main_terminates_witness :
    (well_formed (uniform_image 1 1 0) ∧ 1 ≤ (uniform_image 1 1 0).size.x ∧
      1 ≤ (uniform_image 1 1 0).size.y ∧ (uniform_image 1 1 0).size.x + 68 < 2 ^ 31 ∧
      (uniform_image 1 1 0).size.y + 48 < 2 ^ 31) ∧
    ((grayfilter_trace sample_lightness (uniform_image 1 1 0) (uniform_image 1 1 0)).length =
        (scan_rows (uniform_image 1 1 0).size.y + 1) *
          (scan_columns (uniform_image 1 1 0).size.x + 1) ∧
      List.Chain' (fun a b : scan_event => a.top < b.top ∨ (a.top = b.top ∧ a.left < b.left))
        (grayfilter_trace sample_lightness (uniform_image 1 1 0) (uniform_image 1 1 0)) ∧
      ∀ e ∈ grayfilter_trace sample_lightness (uniform_image 1 1 0) (uniform_image 1 1 0),
        (0 ≤ e.left ∧ e.left < 2 ^ 31) ∧ (0 ≤ e.right ∧ e.right < 2 ^ 31) ∧
          (0 ≤ e.top ∧ e.top < 2 ^ 31) ∧ (0 ≤ e.bottom ∧ e.bottom < 2 ^ 31)) :=
  ⟨⟨by decide, by decide, by decide, by decide, by decide⟩,
    grayfilter_main_terminates sample_lightness (uniform_image 1 1 0) (uniform_image 1 1 0)
      (by decide) (by decide) rfl (by decide) (by decide) (by decide) (by decide)⟩

/-! ## Dark pixels survive, and the output buffer does not matter -/

/-- C14.  A pixel of the input whose lightness is at or below `BLACK_MAX` has the same
value in the output of `grayfilter_main`, and no tile that covers it is cleared. -/
theorem grayfilter_main_keeps_dark (L : Lightness) (inp out : bitmap) (hi : well_formed inp)
    (ho : well_formed out) (hs : out.size = inp.size) (x y : Int) (hb : in_bounds inp x y)
    (hd : (L.of_pixel (GET_PIXEL inp x y) : ℚ) ≤ BLACK_MAX) :
    GET_PIXEL (grayfilter_main L inp out) x y = GET_PIXEL inp x y ∧
      ∀ e ∈ grayfilter_trace L inp out, e.covers x y → e.cleared = false := by
  obtain ⟨⟨_, _, h3⟩, h4⟩ := grayfilter_invariant L inp out hi ho hs
  constructor
  · rcases h3 x y hb with h | ⟨_, h⟩
    · exact h
    · exact absurd hd h
  · intro e he hcov
    obtain ⟨h5, _, h7⟩ := h4 e he
    by_contra hc
    have hc1 : e.cleared = true := by simpa using hc
    have hbe : in_bounds e.seen x y := (in_bounds_of_size _ _ h5.1 x y).2 hb
    exact cleared_no_dark L e h7 hc1 x y hbe hcov
      ((scan_invariant_dark L inp e.seen h5 x y hb).2 hd)

/-- C14 applies to the image of one black pixel. -/
theorem grayfilter_main_keeps_dark_witness :
    (well_formed (uniform_image 1 1 0) ∧ in_bounds (uniform_image 1 1 0) 0 0 ∧
      (sample_lightness.of_pixel (GET_PIXEL (uniform_image 1 1 0) 0 0) : ℚ) ≤ BLACK_MAX) ∧
    (GET_PIXEL (grayfilter_main sample_lightness (uniform_image 1 1 0)
        (uniform_image 1 1 0)) 0 0 = GET_PIXEL (uniform_image 1 1 0) 0 0 ∧
      ∀ e ∈ grayfilter_trace sample_lightness (uniform_image 1 1 0) (uniform_image 1 1 0),
        e.covers 0 0 → e.cleared = false) :=
  ⟨⟨by decide, by decide, sample_all_dark 0 0 (by decide)⟩,
    grayfilter_main_keeps_dark sample_lightness (uniform_image 1 1 0) (uniform_image 1 1 0)
      (by decide) (by decide) rfl 0 0 (by decide) (sample_all_dark 0 0 (by decide))⟩

/-- C16.  For two output buffers of the size of the input, whatever they hold,
`grayfilter_main` returns the same image and goes through the same scan steps. -/
theorem grayfilter_main_ignores_out (L : Lightness) (inp out out2 : bitmap)
    (hi : well_formed inp) (ho : well_formed out) (hs : out.size = inp.size)
    (ho2 : well_formed out2) (hs2 : out2.size = inp.size) :
    grayfilter_main L inp out = grayfilter_main L inp out2 ∧
      grayfilter_trace L inp out = grayfilter_trace L inp out2 := by
  rw [grayfilter_main_eq L inp out hi ho hs, grayfilter_main_eq L inp out2 hi ho2 hs2,
    grayfilter_trace_eq L inp out hi ho hs, grayfilter_trace_eq L inp out2 hi ho2 hs2]
  exact ⟨rfl, rfl⟩

/-- C16 applies to a black and a white output buffer for the image of one gray pixel. -/
theorem grayfilter_main_ignores_out_witness :
    (well_formed (uniform_image 1 1 100) ∧ well_formed (uniform_image 1 1 0) ∧
      (uniform_image 1 1 0).size = (uniform_image 1 1 100).size ∧
      well_formed (uniform_image 1 1 255) ∧
      (uniform_image 1 1 255).size = (uniform_image 1 1 100).size) ∧
    (grayfilter_main sample_lightness (uniform_image 1 1 100) (uniform_image 1 1 0) =
        grayfilter_main sample_lightness (uniform_image 1 1 100) (uniform_image 1 1 255) ∧
      grayfilter_trace sample_lightness (uniform_image 1 1 100) (uniform_image 1 1 0) =
        grayfilter_trace sample_lightness (uniform_image 1 1 100) (uniform_image 1 1 255)) :=
  ⟨⟨by decide, by decide, rfl, by decide, rfl⟩,
    grayfilter_main_ignores_out sample_lightness (uniform_image 1 1 100) (uniform_image 1 1 0)
      (uniform_image 1 1 255) (by decide) (by decide) rfl (by decide) rfl⟩

/-! ## The quotient `lightness_rect` returns -/

theorem int_range_nodup (lo hi : Int) : (int_range lo hi).Nodup := by
  unfold int_range
  refine List.Nodup.map ?_ (List.nodup_range _)
  intro a b hab
  simp only at hab
  omega

theorem int_range_toFinset (lo hi : Int) : (int_range lo hi).toFinset = Finset.Ico lo hi := by
  ext x
  rw [List.mem_toFinset, mem_int_range, Finset.mem_Ico]

theorem sum_int_range (lo hi : Int) (f : Int → Int) :
    ((int_range lo hi).map f).sum = ∑ x ∈ Finset.Ico lo hi, f x := by
  rw [← int_range_toFinset, List.sum_toFinset f (int_range_nodup lo hi)]

/-- The total `lightness_rect` accumulates is the sum over the two half-open ranges. -/
theorem sum_lightness_rect_coords (x1 y1 x2 y2 : Int) (g : Int × Int → Int) :
    ((lightness_rect_coords x1 y1 x2 y2).map g).sum =
      ∑ x ∈ Finset.Ico x1 x2, ∑ y ∈ Finset.Ico y1 y2, g (x, y) := by
  unfold lightness_rect_coords
  rw [List.map_flatMap, List.flatMap_def, List.sum_flatten, List.map_map,
    ← sum_int_range x1 x2 (fun x => ∑ y ∈ Finset.Ico y1 y2, g (x, y))]
  congr 1
  apply List.map_congr_left
  intro x _
  simp only [Function.comp_apply, List.map_map]
  rw [← sum_int_range y1 y2 (fun y => g (x, y))]
  rfl

/-- C11.  The function `lightness_rect` returns the truncating quotient of the sum of
the lightness over `x1 ≤ x < x2`, `y1 ≤ y < y2` by `(x2 - x1 + 1) * (y2 - y1 + 1)`.  On
a tile of the scan the divisor is 2500, 2401 values are summed, and when all of them are
`v` the result is `2401 * v / 2500` rounded down, which is 244 for `WHITE`. -/
theorem lightness_rect_quotient (L : Lightness) (x1 y1 x2 y2 left top v : Int)
    (img : bitmap) :
    lightness_rect L x1 y1 x2 y2 img =
        Int.tdiv (∑ x ∈ Finset.Ico x1 x2, ∑ y ∈ Finset.Ico y1 y2, GET_PIXEL_LIGHTNESS L img x y)
          ((x2 - x1 + 1) * (y2 - y1 + 1)) ∧
      ((left + (SCAN_SIZE - 1) - left + 1) * (top + (SCAN_SIZE - 1) - top + 1) = 2500 ∧
        (Finset.Ico left (left + (SCAN_SIZE - 1)) ×ˢ Finset.Ico top (top + (SCAN_SIZE - 1))).card
          = 2401) ∧
      lightness_rect L left top (left + (SCAN_SIZE - 1)) (top + (SCAN_SIZE - 1)) img =
        (∑ x ∈ Finset.Ico left (left + (SCAN_SIZE - 1)),
          ∑ y ∈ Finset.Ico top (top + (SCAN_SIZE - 1)), GET_PIXEL_LIGHTNESS L img x y) / 2500 ∧
      ((∀ x y, left ≤ x ∧ x < left + (SCAN_SIZE - 1) → top ≤ y ∧ y < top + (SCAN_SIZE - 1) →
          GET_PIXEL_LIGHTNESS L img x y = v) →
        lightness_rect L left top (left + (SCAN_SIZE - 1)) (top + (SCAN_SIZE - 1)) img =
          2401 * v / 2500) ∧
      2401 * WHITE / 2500 = 244 := by
  have htile : lightness_rect L left top (left + (SCAN_SIZE - 1)) (top + (SCAN_SIZE - 1)) img =
      (∑ x ∈ Finset.Ico left (left + (SCAN_SIZE - 1)),
        ∑ y ∈ Finset.Ico top (top + (SCAN_SIZE - 1)), GET_PIXEL_LIGHTNESS L img x y) / 2500 := by
    rw [lightness_rect_tile,
      sum_lightness_rect_coords _ _ _ _ (fun c => GET_PIXEL_LIGHTNESS L img c.1 c.2)]
  refine ⟨?_, ⟨?_, ?_⟩, htile, ?_, by decide⟩
  · unfold lightness_rect
    simp only []
    rw [sum_lightness_rect_coords _ _ _ _ (fun c => GET_PIXEL_LIGHTNESS L img c.1 c.2)]
  · unfold SCAN_SIZE
    ring
  · rw [Finset.card_product, Int.card_Ico, Int.card_Ico]
    have e1 : left + (SCAN_SIZE - 1) - left = 49 := by
      unfold SCAN_SIZE
      ring
    have e2 : top + (SCAN_SIZE - 1) - top = 49 := by
      unfold SCAN_SIZE
      ring
    rw [e1, e2]
    rfl
  · intro hv
    rw [htile]
    have e : (∑ x ∈ Finset.Ico left (left + (SCAN_SIZE - 1)),
        ∑ y ∈ Finset.Ico top (top + (SCAN_SIZE - 1)), GET_PIXEL_LIGHTNESS L img x y) =
        2401 * v := by
      have h1 : ∀ x ∈ Finset.Ico left (left + (SCAN_SIZE - 1)),
          (∑ y ∈ Finset.Ico top (top + (SCAN_SIZE - 1)), GET_PIXEL_LIGHTNESS L img x y) =
            49 * v := by
        intro x hx
        rw [Finset.sum_congr rfl (fun y hy =>
          hv x y (Finset.mem_Ico.1 hx) (Finset.mem_Ico.1 hy)), Finset.sum_const, Int.card_Ico]
        have e2 : top + (SCAN_SIZE - 1) - top = 49 := by
          unfold SCAN_SIZE
          ring
        rw [e2]
        simp
      rw [Finset.sum_congr rfl h1, Finset.sum_const, Int.card_Ico]
      have e1 : left + (SCAN_SIZE - 1) - left = 49 := by
        unfold SCAN_SIZE
        ring
      rw [e1]
      simp
      ring
    rw [e]

theorem sample_white_tile (x y : Int) (hx : 0 ≤ x ∧ x < 0 + (SCAN_SIZE - 1))
    (hy : 0 ≤ y ∧ y < 0 + (SCAN_SIZE - 1)) :
    GET_PIXEL_LIGHTNESS sample_lightness (uniform_image 50 50 255) x y = 255 := by
  have hb : in_bounds (uniform_image 50 50 255) x y := by
    unfold in_bounds uniform_image
    simp only [SCAN_SIZE] at hx hy
    simp only [Nat.cast_ofNat]
    omega
  unfold GET_PIXEL_LIGHTNESS
  rw [if_pos hb, GET_PIXEL_uniform_image_in 50 50 255 x y hb]
  decide

/-- C11 applies to the first tile of the white 50 by 50 image. -/
theorem lightness_rect_quotient_witness :
    (∀ x y, 0 ≤ x ∧ x < 0 + (SCAN_SIZE - 1) → 0 ≤ y ∧ y < 0 + (SCAN_SIZE - 1) →
      GET_PIXEL_LIGHTNESS sample_lightness (uniform_image 50 50 255) x y = 255) ∧
    lightness_rect sample_lightness 0 0 (0 + (SCAN_SIZE - 1)) (0 + (SCAN_SIZE - 1))
      (uniform_image 50 50 255) = 2401 * 255 / 2500 :=
  ⟨sample_white_tile,
    (lightness_rect_quotient sample_lightness 0 0 0 0 0 0 255
      (uniform_image 50 50 255)).2.2.2.1 sample_white_tile⟩

/-! ## The sequence of the tiles -/

theorem scan_columns_least (w : Int) :
    w ≤ SCAN_STEP * (scan_columns w : Int) ∧
      ∀ k : Nat, w ≤ SCAN_STEP * (k : Int) → scan_columns w ≤ k := by
  unfold SCAN_STEP scan_columns
  constructor
  · omega
  · intro k hk
    omega

theorem scan_rows_least (h : Int) :
    h ≤ SCAN_STEP * (scan_rows h : Int) + (SCAN_SIZE - 1) ∧
      ∀ k : Nat, h ≤ SCAN_STEP * (k : Int) + (SCAN_SIZE - 1) → scan_rows h ≤ k := by
  unfold SCAN_STEP SCAN_SIZE scan_rows
  constructor
  · omega
  · intro k hk
    omega

theorem scan_tiles_nodup (w h : Int) : (scan_tiles w h).Nodup := by
  refine List.Pairwise.imp ?_ (scan_tiles_pairwise w h)
  intro a b hab e
  subst e
  unfold cursor_lt at hab
  omega

/-- C12.  For an image of any size, so of width and height at least 1, the tiles
`grayfilter_main` inspects are, row by row and each once, the tiles `(left, top, left + 49, top + 49)`
with `top` the multiples of 20 from 0 up to the least one with `top + 49 ≥ height`
and, in each row, `left` the multiples of 20 from 0 up to the least one with
`left ≥ width`. -/
theorem grayfilter_trace_sequence (L : Lightness) (inp out : bitmap) (hi : well_formed inp)
    (ho : well_formed out) (hs : out.size = inp.size) :
    (grayfilter_trace L inp out).map (fun e => (e.left, e.top, e.right, e.bottom)) =
        (List.range (scan_rows inp.size.y + 1)).flatMap (fun (j : Nat) =>
          (List.range (scan_columns inp.size.x + 1)).map (fun (i : Nat) =>
            (20 * (i : Int), 20 * (j : Int), 20 * (i : Int) + 49, 20 * (j : Int) + 49))) ∧
      ((grayfilter_trace L inp out).map (fun e => (e.left, e.top, e.right, e.bottom))).Nodup ∧
      (inp.size.x ≤ 20 * (scan_columns inp.size.x : Int) ∧
        ∀ k : Nat, inp.size.x ≤ 20 * (k : Int) → scan_columns inp.size.x ≤ k) ∧
      (inp.size.y ≤ 20 * (scan_rows inp.size.y : Int) + 49 ∧
        ∀ k : Nat, inp.size.y ≤ 20 * (k : Int) + 49 → scan_rows inp.size.y ≤ k) := by
  have hr := grayfilter_trace_rects L inp out hi ho hs
  refine ⟨?_, ?_, scan_columns_least _, ?_⟩
  · rw [hr]
    unfold scan_tiles
    rw [List.map_flatMap]
    simp only [List.map_map]
    rfl
  · rw [hr]
    refine List.Nodup.map ?_ (scan_tiles_nodup _ _)
    intro a b hab
    simp only [Prod.mk.injEq] at hab
    exact Prod.ext hab.1 hab.2.1
  · have h := scan_rows_least inp.size.y
    simp only [SCAN_STEP, SCAN_SIZE] at h
    exact ⟨by omega, h.2⟩

/-- C12 applies to the image of one black pixel. -/
theorem grayfilter_trace_sequence_witness :
    (well_formed (uniform_image 1 1 0) ∧ 1 ≤ (uniform_image 1 1 0).size.x ∧
      1 ≤ (uniform_image 1 1 0).size.y) ∧
    ((grayfilter_trace sample_lightness (uniform_image 1 1 0) (uniform_image 1 1 0)).map
          (fun e => (e.left, e.top, e.right, e.bottom)) =
        (List.range (scan_rows (uniform_image 1 1 0).size.y + 1)).flatMap (fun (j : Nat) =>
          (List.range (scan_columns (uniform_image 1 1 0).size.x + 1)).map (fun (i : Nat) =>
            (20 * (i : Int), 20 * (j : Int), 20 * (i : Int) + 49, 20 * (j : Int) + 49))) ∧
      ((grayfilter_trace sample_lightness (uniform_image 1 1 0) (uniform_image 1 1 0)).map
        (fun e => (e.left, e.top, e.right, e.bottom))).Nodup ∧
      ((uniform_image 1 1 0).size.x ≤ 20 * (scan_columns (uniform_image 1 1 0).size.x : Int) ∧
        ∀ k : Nat, (uniform_image 1 1 0).size.x ≤ 20 * (k : Int) →
          scan_columns (uniform_image 1 1 0).size.x ≤ k) ∧
      ((uniform_image 1 1 0).size.y ≤ 20 * (scan_rows (uniform_image 1 1 0).size.y : Int) + 49 ∧
        ∀ k : Nat, (uniform_image 1 1 0).size.y ≤ 20 * (k : Int) + 49 →
          scan_rows (uniform_image 1 1 0).size.y ≤ k)) :=
  ⟨⟨by decide, by decide, by decide⟩,
    grayfilter_trace_sequence sample_lightness (uniform_image 1 1 0) (uniform_image 1 1 0)
      (by decide) (by decide) rfl⟩

/-! ## The branch that leaves a tile without dark pixels alone -/

theorem event_fields (L : Lightness) (e : scan_event)
    (he : e = (scan_tile L e.left e.top (e.left + (SCAN_SIZE - 1))
      (e.top + (SCAN_SIZE - 1)) e.seen).2) :
    e.right = e.left + (SCAN_SIZE - 1) ∧ e.bottom = e.top + (SCAN_SIZE - 1) ∧
      e.count = count_pixels_rect L e.left e.top (e.left + (SCAN_SIZE - 1))
        (e.top + (SCAN_SIZE - 1)) BLACK_MAX e.seen ∧
      e.lightness = (if count_pixels_rect L e.left e.top (e.left + (SCAN_SIZE - 1))
          (e.top + (SCAN_SIZE - 1)) BLACK_MAX e.seen = 0 then
        some (lightness_rect L e.left e.top (e.left + (SCAN_SIZE - 1))
          (e.top + (SCAN_SIZE - 1)) e.seen) else none) := by
  refine ⟨?_, ?_, ?_, ?_⟩
  · conv_lhs => rw [he, scan_tile_event]
  · conv_lhs => rw [he, scan_tile_event]
  · conv_lhs => rw [he, scan_tile_event]
  · conv_lhs => rw [he, scan_tile_event]

/-- On a tile that lies in the image and has no dark pixel `lightness_rect` returns at
least 164. -/
theorem lightness_rect_ge_of_inside (L : Lightness) (l t : Int) (o : bitmap)
    (hin : 0 ≤ l ∧ l + (SCAN_SIZE - 1) < o.size.x ∧ 0 ≤ t ∧ t + (SCAN_SIZE - 1) < o.size.y)
    (h : no_dark L o (l, t)) :
    164 ≤ lightness_rect L l t (l + (SCAN_SIZE - 1)) (t + (SCAN_SIZE - 1)) o := by
  refine le_trans (by decide) (lightness_rect_tile_ge L l t 171 o ?_)
  intro x y hxy
  have hb : in_bounds o x y := by
    unfold in_bounds
    omega
  unfold GET_PIXEL_LIGHTNESS
  rw [if_pos hb]
  have h1 := h x y hb (by
    unfold tile_covers
    simp only
    omega)
  rw [is_dark_iff] at h1
  omega

/-- C13, amended.  A scan step on a tile that lies in the image and has no dark pixel
finds an average of at least 164, passes the test against `THRESHOLD_ABS` and clears the
tile.  When the lightness read outside the image is at least 134, every scan step with
a count of zero clears its tile, and the tiles cleared are those without a dark pixel
of the input. -/
theorem dead_branch (L : Lightness) (inp out : bitmap) (hi : well_formed inp)
    (ho : well_formed out) (hs : out.size = inp.size) :
    (∀ e ∈ grayfilter_trace L inp out,
        (0 ≤ e.left ∧ e.right < inp.size.x ∧ 0 ≤ e.top ∧ e.bottom < inp.size.y) →
        e.count = 0 →
          ∃ v, e.lightness = some v ∧ 164 ≤ v ∧
            (((WHITE - v : Int)) : ℚ) < THRESHOLD_ABS ∧ e.cleared = true) ∧
      (134 ≤ L.outside → ∀ e ∈ grayfilter_trace L inp out,
        (e.count = 0 → e.cleared = true) ∧
          (e.cleared = true ↔ no_dark L inp (e.left, e.top))) := by
  constructor
  · intro e he hin hc
    obtain ⟨h5, _, h7⟩ := (grayfilter_invariant L inp out hi ho hs).2 e he
    obtain ⟨hr, hbt, hcount, hl⟩ := event_fields L e h7
    rw [hcount] at hc
    have hnd : no_dark L e.seen (e.left, e.top) := (count_eq_zero_iff_no_dark L _ _ _).1 hc
    have hge := lightness_rect_ge_of_inside L e.left e.top e.seen (by
      rw [h5.1, ← hr, ← hbt]
      exact hin) hnd
    refine ⟨_, by rw [hl, if_pos hc], hge, (lt_THRESHOLD_ABS_iff _).2 (by omega), ?_⟩
    rw [h7, scan_tile_cleared_iff]
    exact ⟨hc, by omega⟩
  · intro hout e he
    obtain ⟨h5, _, h7⟩ := (grayfilter_invariant L inp out hi ho hs).2 e he
    obtain ⟨_, _, hcount, _⟩ := event_fields L e h7
    have hcl : e.cleared = true ↔ no_dark L e.seen (e.left, e.top) := by
      conv_lhs => rw [h7]
      exact cleared_iff_no_dark L _ _ _ hout
    constructor
    · intro hc
      rw [hcount] at hc
      exact hcl.2 ((count_eq_zero_iff_no_dark L _ _ _).1 hc)
    · rw [hcl]
      exact no_dark_of_invariant L inp e.seen h5 _

theorem dark_surround_value (x y : Int) :
    GET_PIXEL_LIGHTNESS dark_surround_lightness (uniform_image 1 1 200) x y =
      if x = 0 ∧ y = 0 then 200 else 0 := by
  unfold GET_PIXEL_LIGHTNESS
  by_cases hb : in_bounds (uniform_image 1 1 200) x y
  · rw [if_pos hb, GET_PIXEL_uniform_image_in 1 1 200 x y hb]
    have h1 : x = 0 ∧ y = 0 := by
      unfold in_bounds uniform_image at hb
      simp only [Nat.cast_one] at hb
      omega
    rw [if_pos h1]
    decide
  · rw [if_neg hb]
    have h1 : ¬ (x = 0 ∧ y = 0) := by
      rintro ⟨rfl, rfl⟩
      exact hb (by decide)
    rw [if_neg h1]
    rfl

theorem dark_surround_average :
    lightness_rect dark_surround_lightness 0 0 (0 + (SCAN_SIZE - 1)) (0 + (SCAN_SIZE - 1))
      (uniform_image 1 1 200) = 0 := by
  rw [lightness_rect_tile,
    sum_lightness_rect_coords _ _ _ _
      (fun c => GET_PIXEL_LIGHTNESS dark_surround_lightness (uniform_image 1 1 200) c.1 c.2)]
  simp only [dark_surround_value, ite_and, SCAN_SIZE]
  simp [Finset.sum_ite_eq', Finset.mem_Ico]

theorem dark_surround_count :
    count_pixels_rect dark_surround_lightness 0 0 (0 + (SCAN_SIZE - 1)) (0 + (SCAN_SIZE - 1))
      BLACK_MAX (uniform_image 1 1 200) = 0 := by
  rw [count_eq_zero_iff_no_dark]
  intro x y hb _
  rw [GET_PIXEL_uniform_image_in 1 1 200 x y hb, is_dark_iff]
  decide

/-- C13, as stated, fails for a lightness that is 0 outside the image, which lies in
the range 0 to `WHITE`: on the image of one light gray pixel the first tile has no dark
pixel, its average is 0, and it is left as it is. -/
theorem dead_branch_example :
    ∃ e ∈ grayfilter_trace dark_surround_lightness (uniform_image 1 1 200)
        (uniform_image 1 1 200),
      (e.left, e.top, e.right, e.bottom) = (0, 0, 49, 49) ∧ e.count = 0 ∧
        e.lightness = some 0 ∧ e.cleared = false := by
  refine ⟨(scan_tile dark_surround_lightness 0 0 (0 + (SCAN_SIZE - 1)) (0 + (SCAN_SIZE - 1))
    (uniform_image 1 1 200)).2, ?_, ?_⟩
  · rw [grayfilter_trace_eq _ _ _ (uniform_image_well_formed 1 1 200)
      (uniform_image_well_formed 1 1 200) rfl]
    have e : scan_tiles (uniform_image 1 1 200).size.x (uniform_image 1 1 200).size.y =
        [(0, 0), (20, 0)] := by decide
    rw [e]
    exact List.mem_cons_self _ _
  · rw [scan_tile_event]
    simp only [dark_surround_count, dark_surround_average, if_true]
    refine ⟨by decide, trivial, trivial, ?_⟩
    rw [decide_eq_false_iff_not, lt_THRESHOLD_ABS_iff]
    omega

/-- The amended C13 applies to the 50 by 50 image of light gray pixels, whose first tile
lies in the image and has no dark pixel. -/
theorem dead_branch_witness :
    (well_formed (uniform_image 50 50 200) ∧ 134 ≤ sample_lightness.outside ∧
      (scan_tile sample_lightness 0 0 (0 + (SCAN_SIZE - 1)) (0 + (SCAN_SIZE - 1))
          (uniform_image 50 50 200)).2 ∈
        grayfilter_trace sample_lightness (uniform_image 50 50 200) (uniform_image 50 50 200) ∧
      (0 ≤ (scan_tile sample_lightness 0 0 (0 + (SCAN_SIZE - 1)) (0 + (SCAN_SIZE - 1))
          (uniform_image 50 50 200)).2.left ∧
        (scan_tile sample_lightness 0 0 (0 + (SCAN_SIZE - 1)) (0 + (SCAN_SIZE - 1))
          (uniform_image 50 50 200)).2.right < (uniform_image 50 50 200).size.x ∧
        0 ≤ (scan_tile sample_lightness 0 0 (0 + (SCAN_SIZE - 1)) (0 + (SCAN_SIZE - 1))
          (uniform_image 50 50 200)).2.top ∧
        (scan_tile sample_lightness 0 0 (0 + (SCAN_SIZE - 1)) (0 + (SCAN_SIZE - 1))
          (uniform_image 50 50 200)).2.bottom < (uniform_image 50 50 200).size.y) ∧
      (scan_tile sample_lightness 0 0 (0 + (SCAN_SIZE - 1)) (0 + (SCAN_SIZE - 1))
        (uniform_image 50 50 200)).2.count = 0) ∧
    ((∃ v, (scan_tile sample_lightness 0 0 (0 + (SCAN_SIZE - 1)) (0 + (SCAN_SIZE - 1))
          (uniform_image 50 50 200)).2.lightness = some v ∧ 164 ≤ v ∧
        (((WHITE - v : Int)) : ℚ) < THRESHOLD_ABS ∧
        (scan_tile sample_lightness 0 0 (0 + (SCAN_SIZE - 1)) (0 + (SCAN_SIZE - 1))
          (uniform_image 50 50 200)).2.cleared = true) ∧
      ∀ e ∈ grayfilter_trace sample_lightness (uniform_image 50 50 200)
          (uniform_image 50 50 200),
        (e.count = 0 → e.cleared = true) ∧
          (e.cleared = true ↔ no_dark sample_lightness (uniform_image 50 50 200)
            (e.left, e.top))) :=
  have hw := uniform_image_well_formed 50 50 200
  have hmem : (scan_tile sample_lightness 0 0 (0 + (SCAN_SIZE - 1)) (0 + (SCAN_SIZE - 1))
      (uniform_image 50 50 200)).2 ∈
      grayfilter_trace sample_lightness (uniform_image 50 50 200) (uniform_image 50 50 200) := by
    rw [grayfilter_trace_eq _ _ _ hw hw rfl]
    have e : scan_tiles (uniform_image 50 50 200).size.x (uniform_image 50 50 200).size.y =
        [(0, 0), (20, 0), (40, 0), (60, 0), (0, 20), (20, 20), (40, 20), (60, 20)] := by decide
    rw [e]
    exact List.mem_cons_self _ _
  have hin : 0 ≤ (scan_tile sample_lightness 0 0 (0 + (SCAN_SIZE - 1)) (0 + (SCAN_SIZE - 1))
        (uniform_image 50 50 200)).2.left ∧
      (scan_tile sample_lightness 0 0 (0 + (SCAN_SIZE - 1)) (0 + (SCAN_SIZE - 1))
        (uniform_image 50 50 200)).2.right < (uniform_image 50 50 200).size.x ∧
      0 ≤ (scan_tile sample_lightness 0 0 (0 + (SCAN_SIZE - 1)) (0 + (SCAN_SIZE - 1))
        (uniform_image 50 50 200)).2.top ∧
      (scan_tile sample_lightness 0 0 (0 + (SCAN_SIZE - 1)) (0 + (SCAN_SIZE - 1))
        (uniform_image 50 50 200)).2.bottom < (uniform_image 50 50 200).size.y := by
    rw [scan_tile_event]
    decide
  have hcount : (scan_tile sample_lightness 0 0 (0 + (SCAN_SIZE - 1)) (0 + (SCAN_SIZE - 1))
      (uniform_image 50 50 200)).2.count = 0 := by
    rw [scan_tile_event]
    exact (count_eq_zero_iff_no_dark _ _ _ _).2 (sample_no_dark 50 50 (0, 0))
  ⟨⟨hw, by decide, hmem, hin, hcount⟩,
    (dead_branch sample_lightness (uniform_image 50 50 200) (uniform_image 50 50 200)
      hw hw rfl).1 _ hmem hin hcount,
    (dead_branch sample_lightness (uniform_image 50 50 200) (uniform_image 50 50 200)
      hw hw rfl).2 (by decide)⟩

/-! ## The variant that judges the tiles on the input -/

/-- The variant clears a tile exactly when `scan_tile` would clear it on the input. -/
theorem scan_tile_on_input_eq (L : Lightness) (inp : bitmap) (left top right bottom : Int)
    (out : bitmap) :
    scan_tile_on_input L inp left top right bottom out =
      if (scan_tile L left top right bottom inp).2.cleared = true then
        clear_rect out left top right bottom else out := by
  unfold scan_tile_on_input
  simp only []
  by_cases h1 : count_pixels_rect L left top right bottom BLACK_MAX inp = 0
  · by_cases h2 : 128 ≤ lightness_rect L left top right bottom inp
    · rw [if_pos h1, if_pos ((lt_THRESHOLD_ABS_iff _).2 h2),
        if_pos ((scan_tile_cleared_iff L _ _ _ _ inp).2 ⟨h1, h2⟩)]
    · rw [if_pos h1, if_neg (fun h => h2 ((lt_THRESHOLD_ABS_iff _).1 h)),
        if_neg (fun h => h2 ((scan_tile_cleared_iff L _ _ _ _ inp).1 h).2)]
  · rw [if_neg h1, if_neg (fun h => h1 ((scan_tile_cleared_iff L _ _ _ _ inp).1 h).1)]

theorem scan_tile_on_input_size (L : Lightness) (inp : bitmap) (left top right bottom : Int)
    (out : bitmap) : (scan_tile_on_input L inp left top right bottom out).size = out.size := by
  rw [scan_tile_on_input_eq]
  split
  · rfl
  · rfl

theorem scan_tile_on_input_well_formed (L : Lightness) (inp : bitmap)
    (left top right bottom : Int) (out : bitmap) (hw : well_formed out) :
    well_formed (scan_tile_on_input L inp left top right bottom out) := by
  rw [scan_tile_on_input_eq]
  split
  · exact clear_rect_well_formed _ _ _ _ _ hw
  · exact hw

theorem run_tiles_on_input_size (L : Lightness) (inp : bitmap) (ts : List (Int × Int))
    (out : bitmap) : (run_tiles_on_input L inp ts out).size = out.size := by
  unfold run_tiles_on_input
  induction ts generalizing out with
  | nil => rfl
  | cons t ts ih => rw [List.foldl_cons, ih, scan_tile_on_input_size]

theorem run_tiles_on_input_well_formed (L : Lightness) (inp : bitmap)
    (ts : List (Int × Int)) (out : bitmap) (hw : well_formed out) :
    well_formed (run_tiles_on_input L inp ts out) := by
  unfold run_tiles_on_input
  induction ts generalizing out with
  | nil => exact hw
  | cons t ts ih =>
    rw [List.foldl_cons]
    exact ih _ (scan_tile_on_input_well_formed L inp _ _ _ _ out hw)

theorem run_tiles_on_input_append (L : Lightness) (inp : bitmap) (ts us : List (Int × Int))
    (out : bitmap) :
    run_tiles_on_input L inp (ts ++ us) out =
      run_tiles_on_input L inp us (run_tiles_on_input L inp ts out) := by
  unfold run_tiles_on_input
  rw [List.foldl_append]

theorem loop_row_on_input (L : Lightness) (inp : bitmap) (k : Nat) :
    ∀ (i : Nat) (top : Int) (out : bitmap), i + k = scan_columns out.size.x →
    grayfilter_loop_on_input L inp (SCAN_STEP * (i : Int)) top
        (SCAN_STEP * (i : Int) + (SCAN_SIZE - 1)) (top + (SCAN_SIZE - 1)) out =
      if top + (SCAN_SIZE - 1) ≥ out.size.y then
        run_tiles_on_input L inp (row_tiles i k top) out
      else
        grayfilter_loop_on_input L inp 0 (top + SCAN_STEP) (SCAN_SIZE - 1)
          (top + (SCAN_SIZE - 1) + SCAN_STEP)
          (run_tiles_on_input L inp (row_tiles i k top) out) := by
  induction k with
  | zero =>
    intro i top out hik
    rw [grayfilter_loop_on_input, scan_tile_on_input_size]
    have h1 : ¬ SCAN_STEP * (i : Int) < out.size.x := by
      rw [lt_width_iff]
      omega
    rw [if_neg h1]
    by_cases h2 : top + (SCAN_SIZE - 1) ≥ out.size.y
    · rw [if_pos h2, if_pos h2]
      rfl
    · rw [if_neg h2, if_neg h2]
      rfl
  | succ k ih =>
    intro i top out hik
    rw [grayfilter_loop_on_input, scan_tile_on_input_size]
    have h1 : SCAN_STEP * (i : Int) < out.size.x := by
      rw [lt_width_iff]
      omega
    rw [if_pos h1]
    have e1 : SCAN_STEP * (i : Int) + SCAN_STEP = SCAN_STEP * ((i + 1 : Nat) : Int) := by
      push_cast
      ring
    have e2 : SCAN_STEP * (i : Int) + (SCAN_SIZE - 1) + SCAN_STEP =
        SCAN_STEP * ((i + 1 : Nat) : Int) + (SCAN_SIZE - 1) := by
      push_cast
      ring
    rw [e1, e2, ih (i + 1) top _ (by rw [scan_tile_on_input_size]; omega),
      scan_tile_on_input_size]
    have e3 : row_tiles i (k + 1) top = (SCAN_STEP * (i : Int), top) :: row_tiles (i + 1) k top := by
      unfold row_tiles
      rw [List.range'_succ, List.map_cons]
    rw [e3]
    rfl

theorem loop_rows_on_input (L : Lightness) (inp : bitmap) (m : Nat) :
    ∀ (j : Nat) (out : bitmap), j + m = scan_rows out.size.y →
    grayfilter_loop_on_input L inp 0 (SCAN_STEP * (j : Int)) (SCAN_SIZE - 1)
        (SCAN_STEP * (j : Int) + (SCAN_SIZE - 1)) out =
      run_tiles_on_input L inp ((List.range' j (m + 1)).flatMap (fun (r : Nat) =>
        row_tiles 0 (scan_columns out.size.x) (SCAN_STEP * (r : Int)))) out := by
  induction m with
  | zero =>
    intro j out hj
    have h := loop_row_on_input L inp (scan_columns out.size.x) 0 (SCAN_STEP * (j : Int)) out
      (by omega)
    simp only [Nat.cast_zero, mul_zero, zero_add] at h
    rw [h, if_pos ((bottom_ge_height_iff _ _).2 (by omega))]
    simp [List.range'_succ]
  | succ m ih =>
    intro j out hj
    have h := loop_row_on_input L inp (scan_columns out.size.x) 0 (SCAN_STEP * (j : Int)) out
      (by omega)
    simp only [Nat.cast_zero, mul_zero, zero_add] at h
    have h2 : ¬ SCAN_STEP * (j : Int) + (SCAN_SIZE - 1) ≥ out.size.y := by
      rw [bottom_ge_height_iff]
      omega
    rw [h, if_neg h2]
    have e1 : SCAN_STEP * (j : Int) + SCAN_STEP = SCAN_STEP * ((j + 1 : Nat) : Int) := by
      push_cast
      ring
    have e2 : SCAN_STEP * (j : Int) + (SCAN_SIZE - 1) + SCAN_STEP =
        SCAN_STEP * ((j + 1 : Nat) : Int) + (SCAN_SIZE - 1) := by
      push_cast
      ring
    rw [e1, e2, ih (j + 1) _ (by rw [run_tiles_on_input_size]; omega),
      run_tiles_on_input_size]
    conv_rhs => rw [List.range'_succ, List.flatMap_cons, run_tiles_on_input_append]

/-- For buffers of the size of the image, the variant is the variant's run over the
tiles of the scan that starts from a copy of the input. -/
theorem grayfilter_main_on_input_eq (L : Lightness) (inp out : bitmap) (hi : well_formed inp)
    (ho : well_formed out) (hs : out.size = inp.size) :
    grayfilter_main_on_input L inp out =
      run_tiles_on_input L inp (scan_tiles inp.size.x inp.size.y) inp := by
  unfold grayfilter_main_on_input
  rw [memcpy_eq _ _ _ hi (by rw [← hs]; exact ho)]
  have e : ({ out with pixels := inp.pixels } : bitmap) = inp := by
    rw [hs]
  rw [e]
  have h := loop_rows_on_input L inp (scan_rows inp.size.y) 0 inp (by omega)
  simp only [Nat.cast_zero, mul_zero, zero_add] at h
  rw [h, scan_tiles_eq]

/-- The pixels at the end of a run of the variant. -/
theorem GET_PIXEL_run_tiles_on_input (L : Lightness) (inp : bitmap) (ts : List (Int × Int))
    (out : bitmap) (x y : Int) (hw : well_formed out) (hb : in_bounds out x y) :
    ((∃ t ∈ ts, (scan_tile L t.1 t.2 (t.1 + (SCAN_SIZE - 1)) (t.2 + (SCAN_SIZE - 1))
          inp).2.cleared = true ∧ tile_covers t x y) →
        GET_PIXEL (run_tiles_on_input L inp ts out) x y = WHOLE_WHITE) ∧
      ((¬ ∃ t ∈ ts, (scan_tile L t.1 t.2 (t.1 + (SCAN_SIZE - 1)) (t.2 + (SCAN_SIZE - 1))
          inp).2.cleared = true ∧ tile_covers t x y) →
        GET_PIXEL (run_tiles_on_input L inp ts out) x y = GET_PIXEL out x y) := by
  induction ts generalizing out with
  | nil =>
    constructor
    · rintro ⟨t, ht, _⟩
      exact absurd ht (List.not_mem_nil t)
    · intro _
      rfl
  | cons t ts ih =>
    have hb1 : in_bounds (scan_tile_on_input L inp t.1 t.2 (t.1 + (SCAN_SIZE - 1))
        (t.2 + (SCAN_SIZE - 1)) out) x y := by
      unfold in_bounds
      rw [scan_tile_on_input_size]
      exact hb
    obtain ⟨ih1, ih2⟩ := ih _ (scan_tile_on_input_well_formed L inp _ _ _ _ out hw) hb1
    have hstep : run_tiles_on_input L inp (t :: ts) out =
        run_tiles_on_input L inp ts (scan_tile_on_input L inp t.1 t.2 (t.1 + (SCAN_SIZE - 1))
          (t.2 + (SCAN_SIZE - 1)) out) := rfl
    rw [hstep]
    have hone : GET_PIXEL (scan_tile_on_input L inp t.1 t.2 (t.1 + (SCAN_SIZE - 1))
        (t.2 + (SCAN_SIZE - 1)) out) x y =
        if (scan_tile L t.1 t.2 (t.1 + (SCAN_SIZE - 1)) (t.2 + (SCAN_SIZE - 1))
          inp).2.cleared = true ∧ (t.1 ≤ x ∧ x ≤ t.1 + (SCAN_SIZE - 1) ∧ t.2 ≤ y ∧
            y ≤ t.2 + (SCAN_SIZE - 1)) then WHOLE_WHITE else GET_PIXEL out x y := by
      rw [scan_tile_on_input_eq]
      by_cases hc : (scan_tile L t.1 t.2 (t.1 + (SCAN_SIZE - 1)) (t.2 + (SCAN_SIZE - 1))
          inp).2.cleared = true
      · rw [if_pos hc, GET_PIXEL_clear_rect _ _ _ _ _ _ _ hw hb]
        simp only [hc, true_and]
      · rw [if_neg hc, if_neg (fun h => hc h.1)]
    by_cases hrest : ∃ u ∈ ts, (scan_tile L u.1 u.2 (u.1 + (SCAN_SIZE - 1))
        (u.2 + (SCAN_SIZE - 1)) inp).2.cleared = true ∧ tile_covers u x y
    · constructor
      · intro _
        exact ih1 hrest
      · intro hn
        exact absurd (by
          obtain ⟨u, hu, h⟩ := hrest
          exact ⟨u, List.mem_cons_of_mem _ hu, h⟩) hn
    · rw [ih2 hrest, hone]
      constructor
      · rintro ⟨u, hu, hcl, hcov⟩
        rcases List.mem_cons.1 hu with rfl | hu
        · rw [if_pos ⟨hcl, hcov⟩]
        · exact absurd ⟨u, hu, hcl, hcov⟩ hrest
      · intro hn
        rw [if_neg]
        rintro ⟨hcl, hcov⟩
        exact hn ⟨t, List.mem_cons_self _ _, hcl, hcov⟩

/-- C15, amended.  When the lightness read outside the image is at least 134, as it is
for a white surround, the output of `grayfilter_main` is the output of the variant that
judges every tile on the input, and every scan step clears its tile exactly when the
tile would be cleared on the input. -/
theorem grayfilter_main_order_independent (L : Lightness) (inp out : bitmap)
    (hi : well_formed inp) (ho : well_formed out) (hs : out.size = inp.size)
    (hx : 1 ≤ inp.size.x) (hout : 134 ≤ L.outside) :
    grayfilter_main L inp out = grayfilter_main_on_input L inp out ∧
      ∀ e ∈ grayfilter_trace L inp out,
        (e.cleared = true ↔ (scan_tile L e.left e.top e.right e.bottom inp).2.cleared = true) := by
  obtain ⟨⟨h1, h2, _⟩, h4⟩ := grayfilter_invariant L inp out hi ho hs
  constructor
  · have hv := grayfilter_main_on_input_eq L inp out hi ho hs
    apply bitmap_ext _ _ (by rw [h1, hv, run_tiles_on_input_size]) (by rw [h1]; omega) h2
      (by rw [hv]; exact run_tiles_on_input_well_formed L inp _ inp hi)
    intro x y hb
    have hbi : in_bounds inp x y := (in_bounds_of_size _ _ h1 x y).1 hb
    obtain ⟨hw1, hw2⟩ := GET_PIXEL_run_tiles_on_input L inp (scan_tiles inp.size.x inp.size.y)
      inp x y hi hbi
    rw [hv]
    by_cases hc : ∃ t ∈ scan_tiles inp.size.x inp.size.y, tile_covers t x y ∧ no_dark L inp t
    · rw [grayfilter_main_white L inp out hi ho hs hout x y hbi hc]
      obtain ⟨t, ht, hcov, hn⟩ := hc
      exact (hw1 ⟨t, ht, (cleared_iff_no_dark L t.1 t.2 inp hout).2 hn, hcov⟩).symm
    · rw [grayfilter_main_same L inp out hi ho hs hout x y hbi hc]
      refine (hw2 ?_).symm
      rintro ⟨t, ht, hcl, hcov⟩
      exact hc ⟨t, ht, hcov, (cleared_iff_no_dark L t.1 t.2 inp hout).1 hcl⟩
  · intro e he
    obtain ⟨h5, _, h7⟩ := h4 e he
    obtain ⟨hr, hbt, _, _⟩ := event_fields L e h7
    rw [hr, hbt, cleared_iff_no_dark L e.left e.top inp hout]
    conv_lhs => rw [h7]
    rw [cleared_iff_no_dark L e.left e.top e.seen hout]
    exact no_dark_of_invariant L inp e.seen h5 _

/-- The amended C15 applies to the 50 by 50 image of light gray pixels, where every tile
after the first is inspected on a buffer that earlier tiles have whitened. -/
theorem grayfilter_main_order_independent_witness :
    (well_formed (uniform_image 50 50 200) ∧ 1 ≤ (uniform_image 50 50 200).size.x ∧
      134 ≤ sample_lightness.outside) ∧
    (grayfilter_main sample_lightness (uniform_image 50 50 200) (uniform_image 50 50 200) =
        grayfilter_main_on_input sample_lightness (uniform_image 50 50 200)
          (uniform_image 50 50 200) ∧
      ∀ e ∈ grayfilter_trace sample_lightness (uniform_image 50 50 200)
          (uniform_image 50 50 200),
        (e.cleared = true ↔ (scan_tile sample_lightness e.left e.top e.right e.bottom
          (uniform_image 50 50 200)).2.cleared = true)) :=
  ⟨⟨uniform_image_well_formed 50 50 200, by decide, by decide⟩,
    grayfilter_main_order_independent sample_lightness (uniform_image 50 50 200)
      (uniform_image 50 50 200) (uniform_image_well_formed 50 50 200)
      (uniform_image_well_formed 50 50 200) rfl (by decide) (by decide)⟩

/-! ## Averages of images made of bands -/

theorem sum_bands (l hh d : Int) (c : Int → Int) (h0 : 0 ≤ hh) (h1 : hh ≤ 49) :
    (∑ x ∈ Finset.Ico l (l + 49), ∑ y ∈ Finset.Ico (0 : Int) 49,
        (if y < hh then c x else d)) =
      hh * ((int_range l (l + 49)).map c).sum + 49 * (49 - hh) * d := by
  have inner : ∀ x : Int, (∑ y ∈ Finset.Ico (0 : Int) 49, (if y < hh then c x else d)) =
      hh * c x + (49 - hh) * d := by
    intro x
    rw [← Finset.Ico_union_Ico_eq_Ico h0 h1,
      Finset.sum_union (Finset.Ico_disjoint_Ico_consecutive 0 hh 49),
      Finset.sum_congr rfl (fun y hy => if_pos (Finset.mem_Ico.1 hy).2),
      Finset.sum_congr rfl (fun y hy => if_neg (not_lt.2 (Finset.mem_Ico.1 hy).1)),
      Finset.sum_const, Finset.sum_const, Int.card_Ico, Int.card_Ico, nsmul_eq_mul,
      nsmul_eq_mul, Int.toNat_of_nonneg (by omega : 0 ≤ hh - 0),
      Int.toNat_of_nonneg (by omega : 0 ≤ 49 - hh), sub_zero]
  rw [Finset.sum_congr rfl (fun x _ => inner x), Finset.sum_add_distrib, ← Finset.mul_sum,
    Finset.sum_const, Int.card_Ico, sum_int_range, nsmul_eq_mul]
  have e : ((l + 49 - l).toNat : Int) = 49 := by
    omega
  rw [e]
  ring

/-- The result of `lightness_rect` on a tile of the first row of the scan, when the
lightness read depends on the column above the row `hh` and is `d` from there on. -/
theorem lightness_rect_bands (L : Lightness) (img : bitmap) (l hh d : Int) (c : Int → Int)
    (h0 : 0 ≤ hh) (h1 : hh ≤ 49)
    (hv : ∀ x y, l ≤ x ∧ x < l + 49 → 0 ≤ y ∧ y < 49 →
      GET_PIXEL_LIGHTNESS L img x y = if y < hh then c x else d) :
    lightness_rect L l 0 (l + (SCAN_SIZE - 1)) (0 + (SCAN_SIZE - 1)) img =
      (hh * ((int_range l (l + 49)).map c).sum + 49 * (49 - hh) * d) / 2500 := by
  rw [lightness_rect_tile,
    sum_lightness_rect_coords _ _ _ _ (fun p => GET_PIXEL_LIGHTNESS L img p.1 p.2)]
  have e : SCAN_SIZE - 1 = 49 := by decide
  simp only [e, zero_add]
  rw [← sum_bands l hh d c h0 h1]
  congr 1
  refine Finset.sum_congr rfl (fun x hx => Finset.sum_congr rfl (fun y hy => ?_))
  exact hv x y (Finset.mem_Ico.1 hx) (Finset.mem_Ico.1 hy)

/-- A lower bound on the result of `lightness_rect` on a tile of the first row. -/
theorem lightness_rect_bands_ge (L : Lightness) (img : bitmap) (l hh d : Int) (c : Int → Int)
    (h0 : 0 ≤ hh) (h1 : hh ≤ 49)
    (hv : ∀ x y, l ≤ x ∧ x < l + 49 → 0 ≤ y ∧ y < 49 →
      (if y < hh then c x else d) ≤ GET_PIXEL_LIGHTNESS L img x y) :
    (hh * ((int_range l (l + 49)).map c).sum + 49 * (49 - hh) * d) / 2500 ≤
      lightness_rect L l 0 (l + (SCAN_SIZE - 1)) (0 + (SCAN_SIZE - 1)) img := by
  rw [lightness_rect_tile,
    sum_lightness_rect_coords _ _ _ _ (fun p => GET_PIXEL_LIGHTNESS L img p.1 p.2)]
  have e : SCAN_SIZE - 1 = 49 := by decide
  simp only [e, zero_add]
  rw [← sum_bands l hh d c h0 h1]
  apply Int.ediv_le_ediv (by decide)
  refine Finset.sum_le_sum (fun x hx => Finset.sum_le_sum (fun y hy => ?_))
  exact hv x y (Finset.mem_Ico.1 hx) (Finset.mem_Ico.1 hy)

theorem GET_PIXEL_LIGHTNESS_nonneg (L : Lightness) (img : bitmap) (x y : Int) :
    0 ≤ GET_PIXEL_LIGHTNESS L img x y := by
  unfold GET_PIXEL_LIGHTNESS
  split
  · exact (L.of_pixel_range _).1
  · exact L.outside_range.1

/-! ## A dark surround makes the order of the scan matter -/

theorem dark_surround_of_gray (v : Fin 256) :
    dark_surround_lightness.of_pixel (gray v) = (v.val : Int) := by
  show ((min v (min v v)).val : Int) = _
  rw [min_self, min_self]

theorem order_example_value (x y : Int) (hx : 0 ≤ x) (hy : 0 ≤ y ∧ y < 49) :
    GET_PIXEL_LIGHTNESS dark_surround_lightness (uniform_image 56 49 171) x y =
      if x < 56 then 171 else 0 := by
  unfold GET_PIXEL_LIGHTNESS
  by_cases hb : in_bounds (uniform_image 56 49 171) x y
  · have h56 : x < 56 := by
      have h := hb.2.1
      unfold uniform_image at h
      simpa using h
    rw [if_pos hb, GET_PIXEL_uniform_image_in 56 49 171 x y hb, dark_surround_of_gray,
      if_pos h56]
    rfl
  · rw [if_neg hb, if_neg]
    · rfl
    · intro h
      exact hb ⟨hx, h, hy.1, hy.2⟩

theorem order_example_input_average (l : Int) (hl : 0 ≤ l) :
    lightness_rect dark_surround_lightness l 0 (l + (SCAN_SIZE - 1)) (0 + (SCAN_SIZE - 1))
        (uniform_image 56 49 171) =
      (49 * ((int_range l (l + 49)).map (fun x => if x < 56 then (171 : Int) else 0)).sum +
        49 * (49 - 49) * 0) / 2500 := by
  refine lightness_rect_bands _ _ l 49 0 _ (by decide) (by decide) ?_
  intro x y hx hy
  rw [if_pos hy.2]
  exact order_example_value x y (by omega) hy

theorem order_example_no_dark (o : bitmap)
    (h : scan_invariant dark_surround_lightness (uniform_image 56 49 171) o) (t : Int × Int) :
    no_dark dark_surround_lightness o t := by
  rw [no_dark_of_invariant _ _ o h t]
  intro x y hb _
  rw [GET_PIXEL_uniform_image_in 56 49 171 x y hb, is_dark_iff, dark_surround_of_gray]
  decide

/-- C15, as stated, fails for a lightness that is 0 outside the image: on the 56 by 49
image of pixels of lightness 171 the second tile is cleared because the first one has
whitened part of it, while on the input its average is 120, so the pixel `(55, 0)` is
white in the output of `grayfilter_main` and unchanged in the output of the variant. -/
theorem grayfilter_main_order_dependent_example :
    grayfilter_main dark_surround_lightness (uniform_image 56 49 171)
        (uniform_image 56 49 171) ≠
      grayfilter_main_on_input dark_surround_lightness (uniform_image 56 49 171)
        (uniform_image 56 49 171) := by
  intro heq
  have hw := uniform_image_well_formed 56 49 171
  have hb : in_bounds (uniform_image 56 49 171) 55 0 := by decide
  have htiles : scan_tiles (uniform_image 56 49 171).size.x (uniform_image 56 49 171).size.y =
      [(0, 0), (20, 0), (40, 0), (60, 0)] := by decide
  have hinv1 := scan_invariant_step dark_surround_lightness (uniform_image 56 49 171)
    (uniform_image 56 49 171) 0 0 (scan_invariant_refl _ _ hw)
  have hc1 : (scan_tile dark_surround_lightness 0 0 (0 + (SCAN_SIZE - 1)) (0 + (SCAN_SIZE - 1))
      (uniform_image 56 49 171)).2.cleared = true := by
    rw [scan_tile_cleared_iff, count_eq_zero_iff_no_dark, order_example_input_average 0 (by decide)]
    exact ⟨order_example_no_dark _ (scan_invariant_refl _ _ hw) _, by decide⟩
  have hc2 : (scan_tile dark_surround_lightness 20 0 (20 + (SCAN_SIZE - 1)) (0 + (SCAN_SIZE - 1))
      (scan_tile dark_surround_lightness 0 0 (0 + (SCAN_SIZE - 1)) (0 + (SCAN_SIZE - 1))
        (uniform_image 56 49 171)).1).2.cleared = true := by
    rw [scan_tile_cleared_iff, count_eq_zero_iff_no_dark]
    refine ⟨order_example_no_dark _ hinv1 _, le_trans (by decide)
      (lightness_rect_bands_ge _ _ 20 49 0 (fun x => if x < 50 then (255 : Int) else 0)
        (by decide) (by decide) ?_)⟩
    intro x y hx hy
    rw [if_pos hy.2]
    show (if x < 50 then (255 : Int) else 0) ≤ _
    by_cases h50 : x < 50
    · rw [if_pos h50]
      have hbi : in_bounds (uniform_image 56 49 171) x y := ⟨by omega, by
        show x < ((56 : Nat) : Int)
        omega, hy.1, hy.2⟩
      have hbo := (in_bounds_of_size _ _ hinv1.1 x y).2 hbi
      unfold GET_PIXEL_LIGHTNESS
      rw [if_pos hbo, GET_PIXEL_scan_tile _ _ _ _ _ x y _ hw hbi, if_pos ⟨hc1, by
        rw [scan_tile_event]
        unfold scan_event.covers
        simp only [SCAN_SIZE]
        omega⟩, dark_surround_lightness.of_white]
      decide
    · rw [if_neg h50]
      exact GET_PIXEL_LIGHTNESS_nonneg _ _ _ _
  have h1 : GET_PIXEL (grayfilter_main dark_surround_lightness (uniform_image 56 49 171)
      (uniform_image 56 49 171)) 55 0 = WHOLE_WHITE := by
    rw [GET_PIXEL_grayfilter_main _ _ _ hw hw rfl 55 0 hb, if_pos]
    refine ⟨_, ?_, hc2, ?_⟩
    · rw [grayfilter_trace_eq _ _ _ hw hw rfl, htiles]
      exact List.mem_cons_of_mem _ (List.mem_cons_self _ _)
    · rw [scan_tile_event]
      decide
  have h2 : GET_PIXEL (grayfilter_main_on_input dark_surround_lightness (uniform_image 56 49 171)
      (uniform_image 56 49 171)) 55 0 = GET_PIXEL (uniform_image 56 49 171) 55 0 := by
    rw [grayfilter_main_on_input_eq _ _ _ hw hw rfl, htiles]
    refine (GET_PIXEL_run_tiles_on_input _ _ _ _ 55 0 hw hb).2 ?_
    rintro ⟨t, ht, hcl, hcov⟩
    simp only [List.mem_cons, List.mem_singleton, List.not_mem_nil, or_false] at ht
    rcases ht with rfl | rfl | rfl | rfl
    · unfold tile_covers at hcov
      simp only [SCAN_SIZE] at hcov
      omega
    · have h3 := ((scan_tile_cleared_iff _ _ _ _ _ _).1 hcl).2
      simp only [] at h3
      rw [order_example_input_average 20 (by decide)] at h3
      revert h3
      decide
    · have h3 := ((scan_tile_cleared_iff _ _ _ _ _ _).1 hcl).2
      simp only [] at h3
      rw [order_example_input_average 40 (by decide)] at h3
      revert h3
      decide
    · unfold tile_covers at hcov
      simp only [SCAN_SIZE] at hcov
      omega
  rw [heq, h2, GET_PIXEL_uniform_image_in 56 49 171 55 0 hb] at h1
  exact absurd h1 (by decide)

/-! ## A dim surround breaks idempotence -/

theorem column_image_well_formed (w h : Nat) (col : Int → Fin 256) :
    well_formed (column_image w h col) := by
  unfold well_formed column_image
  simp only [List.length_map, List.length_range]
  rw [← Int.natCast_mul, Int.toNat_natCast]

theorem GET_PIXEL_column_image_in (w h : Nat) (col : Int → Fin 256) (x y : Int)
    (hb : in_bounds (column_image w h col) x y) :
    GET_PIXEL (column_image w h col) x y = gray (col x) := by
  have h1 := pixel_index_lt _ x y (column_image_well_formed w h col) hb
  obtain ⟨hx0, hx1, hy0, _⟩ := hb
  have hx2 : x < (w : Int) := hx1
  unfold GET_PIXEL
  rw [List.getD_eq_getElem?_getD, List.getElem?_eq_getElem h1]
  have hidx : (((pixel_index (column_image w h col) x y % w : Nat)) : Int) = x := by
    unfold pixel_index
    have h2 : 0 ≤ y * (w : Int) := Int.mul_nonneg hy0 (by omega)
    show (((y * (w : Int) + x).toNat % w : Nat) : Int) = x
    rw [Int.natCast_mod, Int.toNat_of_nonneg (by omega), Int.add_comm,
      Int.add_mul_emod_self, Int.emod_eq_of_lt hx0 hx2]
  simp only [column_image, List.getElem_map, List.getElem_range, Option.getD_some]
  have hidx2 := hidx
  simp only [column_image] at hidx2
  rw [hidx2]

theorem dim_surround_of_gray (v : Fin 256) :
    dim_surround_lightness.of_pixel (gray v) = (v.val : Int) := by
  show ((min v (min v v)).val : Int) = _
  rw [min_self, min_self]

theorem three_bands_light (x : Int) : ¬ ((three_bands x).val : Int) ≤ 170 := by
  unfold three_bands
  split
  · decide
  · split
    · decide
    · decide

theorem banded_value (x y : Int) (hx : 0 ≤ x ∧ x < 69) (hy : 0 ≤ y) :
    GET_PIXEL_LIGHTNESS dim_surround_lightness banded_image x y =
      if y < 2 then ((three_bands x).val : Int) else 130 := by
  unfold GET_PIXEL_LIGHTNESS
  by_cases h2 : y < 2
  · have hb : in_bounds banded_image x y := ⟨hx.1, hx.2, hy, h2⟩
    rw [if_pos hb, if_pos h2]
    unfold banded_image
    rw [GET_PIXEL_column_image_in 69 2 three_bands x y hb, dim_surround_of_gray]
  · rw [if_neg h2, if_neg]
    · rfl
    · intro hb
      exact h2 hb.2.2.2

theorem banded_input_average (l : Int) (hl : 0 ≤ l ∧ l + 49 ≤ 69) :
    lightness_rect dim_surround_lightness l 0 (l + (SCAN_SIZE - 1)) (0 + (SCAN_SIZE - 1))
        banded_image =
      (2 * ((int_range l (l + 49)).map (fun x => ((three_bands x).val : Int))).sum +
        49 * (49 - 2) * 130) / 2500 := by
  refine lightness_rect_bands _ _ l 2 130 _ (by decide) (by decide) ?_
  intro x y hx hy
  exact banded_value x y (by omega) hy.1

theorem banded_no_dark (o : bitmap)
    (h : scan_invariant dim_surround_lightness banded_image o) (t : Int × Int) :
    no_dark dim_surround_lightness o t := by
  rw [no_dark_of_invariant _ _ o h t]
  intro x y hb _
  unfold banded_image at hb ⊢
  rw [GET_PIXEL_column_image_in 69 2 three_bands x y hb, is_dark_iff, dim_surround_of_gray]
  exact three_bands_light x

theorem banded_first_not_cleared :
    (scan_tile dim_surround_lightness 0 0 (0 + (SCAN_SIZE - 1)) (0 + (SCAN_SIZE - 1))
      banded_image).2.cleared = false := by
  rw [Bool.eq_false_iff]
  intro h
  have h3 := ((scan_tile_cleared_iff _ _ _ _ _ _).1 h).2
  rw [banded_input_average 0 (by decide)] at h3
  revert h3
  decide

theorem banded_first_out :
    (scan_tile dim_surround_lightness 0 0 (0 + (SCAN_SIZE - 1)) (0 + (SCAN_SIZE - 1))
      banded_image).1 = banded_image := by
  rw [scan_tile_out, banded_first_not_cleared]
  rfl

theorem banded_second_cleared :
    (scan_tile dim_surround_lightness 20 0 (20 + (SCAN_SIZE - 1)) (0 + (SCAN_SIZE - 1))
      banded_image).2.cleared = true := by
  rw [scan_tile_cleared_iff, count_eq_zero_iff_no_dark, banded_input_average 20 (by decide)]
  exact ⟨banded_no_dark _ (scan_invariant_refl _ _ (column_image_well_formed 69 2 three_bands)) _,
    by decide⟩

theorem banded_tiles (o : bitmap) (hs : o.size = banded_image.size) :
    scan_tiles o.size.x o.size.y = [(0, 0), (20, 0), (40, 0), (60, 0), (80, 0)] := by
  rw [hs]
  decide

/-- After the first run the columns from 20 on are white and the others are untouched. -/
theorem banded_first_run (x y : Int) (hb : in_bounds banded_image x y) :
    GET_PIXEL (grayfilter_main dim_surround_lightness banded_image banded_image) x y =
      if x < 20 then GET_PIXEL banded_image x y else WHOLE_WHITE := by
  have hw : well_formed banded_image := column_image_well_formed 69 2 three_bands
  rw [GET_PIXEL_grayfilter_main _ _ _ hw hw rfl x y hb, grayfilter_trace_eq _ _ _ hw hw rfl,
    banded_tiles banded_image rfl]
  by_cases h20 : x < 20
  · rw [if_pos h20, if_neg]
    rintro ⟨e, he, hcl, hcov⟩
    simp only [run_tiles, List.mem_cons, List.mem_singleton, List.not_mem_nil, or_false] at he
    rcases he with rfl | rfl | rfl | rfl | rfl
    · rw [banded_first_not_cleared] at hcl
      exact absurd hcl (by decide)
    all_goals
      rw [scan_tile_event] at hcov
      unfold scan_event.covers at hcov
      simp only [] at hcov
      omega
  · rw [if_neg h20, if_pos]
    refine ⟨(scan_tile dim_surround_lightness 20 0 (20 + (SCAN_SIZE - 1)) (0 + (SCAN_SIZE - 1))
      (scan_tile dim_surround_lightness 0 0 (0 + (SCAN_SIZE - 1)) (0 + (SCAN_SIZE - 1))
        banded_image).1).2, List.mem_cons_of_mem _ (List.mem_cons_self _ _), ?_, ?_⟩
    · rw [banded_first_out]
      exact banded_second_cleared
    · rw [scan_tile_event]
      unfold scan_event.covers
      have h1 := hb.2.1
      have h2 := hb.2.2
      have h3 : x < 69 := h1
      have h4 : y < 2 := h2.2
      simp only [SCAN_SIZE]
      omega

/-- C4, as stated, fails for a lightness that is 130 outside the image: on the 69 by 2
image with columns of lightness 171, 200 and 255 the first run clears only the tile at
left 20, and the second run then clears the tile at left 0 as well, so the pixel
`(0, 0)` is white after the second run and unchanged after the first. -/
theorem grayfilter_main_not_idempotent_example :
    grayfilter_main dim_surround_lightness
        (grayfilter_main dim_surround_lightness banded_image banded_image) banded_image ≠
      grayfilter_main dim_surround_lightness banded_image banded_image := by
  intro heq
  have hw : well_formed banded_image := column_image_well_formed 69 2 three_bands
  obtain ⟨hs1, hw1, hp1⟩ := (grayfilter_invariant dim_surround_lightness banded_image
    banded_image hw hw rfl).1
  have hinv : scan_invariant dim_surround_lightness banded_image
      (grayfilter_main dim_surround_lightness banded_image banded_image) := ⟨hs1, hw1, hp1⟩
  have hb : in_bounds banded_image 0 0 := by decide
  have hb1 : in_bounds (grayfilter_main dim_surround_lightness banded_image banded_image) 0 0 :=
    (in_bounds_of_size _ _ hs1 0 0).2 hb
  have hc : (scan_tile dim_surround_lightness 0 0 (0 + (SCAN_SIZE - 1)) (0 + (SCAN_SIZE - 1))
      (grayfilter_main dim_surround_lightness banded_image banded_image)).2.cleared = true := by
    rw [scan_tile_cleared_iff, count_eq_zero_iff_no_dark]
    refine ⟨banded_no_dark _ hinv _, le_trans (by decide)
      (lightness_rect_bands_ge _ _ 0 2 130 (fun x => if x < 20 then (171 : Int) else 255)
        (by decide) (by decide) ?_)⟩
    intro x y hx hy
    show (if y < 2 then (if x < 20 then (171 : Int) else 255) else 130) ≤ _
    unfold GET_PIXEL_LIGHTNESS
    by_cases h2 : y < 2
    · have hbi : in_bounds banded_image x y := ⟨hx.1, by
        show x < ((69 : Nat) : Int)
        omega, hy.1, h2⟩
      rw [if_pos h2, if_pos ((in_bounds_of_size _ _ hs1 x y).2 hbi), banded_first_run x y hbi]
      by_cases h20 : x < 20
      · rw [if_pos h20, if_pos h20]
        unfold banded_image
        rw [GET_PIXEL_column_image_in 69 2 three_bands x y hbi, dim_surround_of_gray]
        have := three_bands_light x
        omega
      · rw [if_neg h20, if_neg h20, dim_surround_lightness.of_white]
        decide
    · rw [if_neg h2, if_neg]
      · decide
      · intro hbo
        exact h2 ((in_bounds_of_size _ _ hs1 x y).1 hbo).2.2.2
  have h1 : GET_PIXEL (grayfilter_main dim_surround_lightness
      (grayfilter_main dim_surround_lightness banded_image banded_image) banded_image) 0 0 =
      WHOLE_WHITE := by
    rw [GET_PIXEL_grayfilter_main _ _ _ hw1 hw hs1.symm 0 0 hb1, if_pos]
    refine ⟨_, ?_, hc, ?_⟩
    · rw [grayfilter_trace_eq _ _ _ hw1 hw hs1.symm, banded_tiles _ hs1]
      exact List.mem_cons_self _ _
    · rw [scan_tile_event]
      decide
  rw [heq, banded_first_run 0 0 hb, if_pos (by decide)] at h1
  unfold banded_image at h1 hb
  rw [GET_PIXEL_column_image_in 69 2 three_bands 0 0 hb] at h1
  exact absurd h1 (by decide)

end Grayfilter
